import Mathlib

/-!
Verification of the two in-memory ordered containers of this repository:
the splay tree (db/splaytree.h) and the zip tree (db/ziptree.h).

The embedding instantiates the key template parameter with Int and the
injected comparator with the canonical three-way comparison on Int.  Nodes
are represented as values of an inductive binary-tree type whose payload
carries exactly the per-node fields of the corresponding C++ struct other
than the child and parent pointers: child pointers become the two subtree
positions, and the parent pointer, which every rewiring in the source keeps
consistent with the child pointers, is represented implicitly by the
position of a node inside the tree value.  Walks along parent pointers
(the splay loop, the zip iterator's climb) are modelled by explicit parent
chains: lists of (which child slot, parent payload, other subtree).
-/

set_option maxHeartbeats 1000000

namespace LevelDBTrees

/-- Three-way comparator over Int keys: the canonical total order used to
instantiate the injected Comparator template parameter (negative, zero,
positive as in the source's comparator contract). -/
def cmp3 (a b : Int) : Int :=
  if a < b then -1 else if b < a then 1 else 0

/-! ## Sorted-list helpers used to state ordering properties -/

/-- Strictly increasing chain check for a list of keys. -/
def chainLt : List Int → Bool
  | [] => true
  | [_] => true
  | a :: b :: t => decide (a < b) && chainLt (b :: t)

/-- First element strictly greater than k (the in-order successor of k in a
sorted list of distinct keys). -/
def listSucc (xs : List Int) (k : Int) : Option Int :=
  xs.find? (fun x => decide (k < x))

/-- Last element strictly smaller than k (the in-order predecessor of k in a
sorted list of distinct keys). -/
def listPred (xs : List Int) (k : Int) : Option Int :=
  xs.reverse.find? (fun x => decide (x < k))

/-- First element greater than or equal to the target in a sorted list. -/
def listGE (xs : List Int) (k : Int) : Option Int :=
  xs.find? (fun x => decide (k ≤ x))

/-- Insertion of a key into a sorted list, keeping the list unchanged when
the key is already present. -/
def insSorted (k : Int) : List Int → List Int
  | [] => [k]
  | x :: xs => if k < x then k :: x :: xs else if x < k then x :: insSorted k xs else x :: xs

/-! ## Generic binary-tree shape -/

/-- Binary tree with payload type α: a node holds its payload and the two
child subtrees accessed through child pointers in the source. -/
inductive BT (α : Type) where
  | lf : BT α
  | nd : BT α → α → BT α → BT α
deriving DecidableEq, Repr

/-- In-order key sequence of a tree, given the payload's key projection. -/
def keysB (kf : α → Int) : BT α → List Int
  | .lf => []
  | .nd l a r => keysB kf l ++ kf a :: keysB kf r

/-- Lower-bound check with none meaning unbounded below. -/
def loLt (lo : Option Int) (k : Int) : Bool :=
  match lo with
  | none => true
  | some x => decide (x < k)

/-- Upper-bound check with none meaning unbounded above. -/
def ltHi (k : Int) (hi : Option Int) : Bool :=
  match hi with
  | none => true
  | some x => decide (k < x)

/-- BST-order invariant with open-interval bounds: all keys of the left
subtree lie below the node key, all keys of the right subtree above it. -/
def bstB (kf : α → Int) (lo hi : Option Int) : BT α → Bool
  | .lf => true
  | .nd l a r =>
    loLt lo (kf a) && ltHi (kf a) hi &&
    bstB kf lo (some (kf a)) l && bstB kf (some (kf a)) hi r

/-- Which child slot a node occupies in its parent (NodeSide,
splaytree.h:55-58). -/
inductive Side where
  | kLeft : Side
  | kRight : Side
deriving DecidableEq, Repr

/-- One entry of a parent chain: the child slot the focused subtree
occupies, the parent's payload, and the parent's other subtree.  Entries
are ordered nearest parent first, so a chain is exactly the path the
source walks through parent pointers. -/
structure Ent (α : Type) where
  side : Side
  d : α
  sib : BT α
deriving DecidableEq, Repr

/-- Rebuild the whole tree from a focused subtree and its parent chain. -/
def plugB : List (Ent α) → BT α → BT α
  | [], t => t
  | e :: p, t =>
    match e.side with
    | .kLeft => plugB p (.nd t e.d e.sib)
    | .kRight => plugB p (.nd e.sib e.d t)

/-- Comparator descent to the node holding key k, recording the parent
chain; reaches (path, lf) when the key is absent.  This recovers the
parent chain that the source reads off the parent pointers. -/
def searchB (kf : α → Int) (k : Int) (acc : List (Ent α)) : BT α → List (Ent α) × BT α
  | .lf => (acc, .lf)
  | .nd l a r =>
    if cmp3 (kf a) k = 0 then (acc, .nd l a r)
    else if cmp3 (kf a) k < 0 then searchB kf k (⟨.kRight, a, l⟩ :: acc) r
    else searchB kf k (⟨.kLeft, a, r⟩ :: acc) l

/-- Open-interval bounds of the focused slot described by a parent chain,
starting from the bounds of the whole tree. -/
def pBounds (kf : α → Int) : List (Ent α) → Option Int × Option Int → Option Int × Option Int
  | [], b => b
  | e :: p, b =>
    let b2 := pBounds kf p b
    match e.side with
    | .kLeft => (b2.1, some (kf e.d))
    | .kRight => (some (kf e.d), b2.2)

/-- Payload of the leftmost node of a subtree (plain descent through left
child pointers). -/
def leftmostD : BT α → Option α
  | .lf => none
  | .nd l a _ =>
    match l with
    | .lf => some a
    | .nd _ _ _ => leftmostD l

/-- Payload of the rightmost node of a subtree. -/
def rightmostD : BT α → Option α
  | .lf => none
  | .nd _ a r =>
    match r with
    | .lf => some a
    | .nd _ _ _ => rightmostD r

/-! ## Splay tree (db/splaytree.h)

Node payload: the fields of SplayTree::Node (splaytree.h:60-76) other than
the parent/child pointers — the immutable key, the inserted flag, and the
two thread pointers ancestor_prev/ancestor_next.  A thread pointer is
represented by the key of the node it points to (keys are distinct in
every reachable tree); none is the null pointer. -/

structure SData where
  key : Int
  inserted : Bool
  aprev : Option Int
  anext : Option Int
deriving DecidableEq, Repr

abbrev STree := BT SData

abbrev SEnt := Ent SData

/-- In-order key list of a splay tree. -/
def skeys : STree → List Int := keysB SData.key

/-- SplayTree state: root plus the maintained size_ counter
(splaytree.h:100-101). -/
structure SplaySt where
  tree : STree
  size : Nat
deriving DecidableEq, Repr

/-- The freshly constructed tree (splaytree.h:29-30). -/
def emptyS : SplaySt := { tree := .lf, size := 0 }

/-- SplayTree::UnlockFind (splaytree.h:319-334) with the comparator kept
abstract.  The probe on the visited node uses the key type's operator==
(Int equality here) while the descent direction uses the injected
comparator; the loop stops early at a node whose inserted flag is cleared
and Contains then still reports that node as found (the source returns the
raw pointer). -/
def pUnlockFind (cmp : Int → Int → Int) (k : Int) : STree → Option SData
  | .lf => none
  | .nd l d r =>
    if d.inserted = false then some d
    else if d.key = k then some d
    else if cmp d.key k < 0 then pUnlockFind cmp k r
    else pUnlockFind cmp k l

/-- UnlockFind at the canonical comparator. -/
def unlockFind (k : Int) (t : STree) : Option SData :=
  pUnlockFind cmp3 k t

/-- SplayTree::Contains (splaytree.h:146-150). -/
def containsS (t : STree) (k : Int) : Bool :=
  (unlockFind k t).isSome

/-- Whether the Insert descent (splaytree.h:114-131) with the comparator
kept abstract meets a node comparing equal to the key, in which case the
source deletes the speculative node and returns without inserting. -/
def pInsDup (cmp : Int → Int → Int) (k : Int) : STree → Bool
  | .lf => false
  | .nd l d r =>
    if cmp k d.key = 0 then true
    else if cmp d.key k < 0 then pInsDup cmp k r
    else pInsDup cmp k l

/-- The Insert descent (splaytree.h:111-132): walks from the root rejecting
a key that compares equal to a visited node; otherwise records the parent
chain down to the null slot and reassigns the new node's thread pointers at
every step exactly as the source does — descending right, the new node's
predecessor becomes the visited node and its successor inherits the visited
node's successor; symmetric on the left.  Returns the payload the new node
holds at attachment (inserted still false) together with its parent
chain. -/
def insGo (k : Int) (ap an : Option Int) (acc : List SEnt) : STree → Option (SData × List SEnt)
  | .lf => some ({ key := k, inserted := false, aprev := ap, anext := an }, acc)
  | .nd l d r =>
    if cmp3 k d.key = 0 then none
    else if cmp3 d.key k < 0 then
      insGo k (some d.key) d.anext (⟨.kRight, d, l⟩ :: acc) r
    else
      insGo k d.aprev (some d.key) (⟨.kLeft, d, r⟩ :: acc) l

/-- One pass of SplayTree::Splay (splaytree.h:356-386) driven by the parent
chain: zig when only the parent remains, zig-zig and zig-zag patterns when
a grandparent exists, each rotation updating the thread pointers exactly as
Rotate (splaytree.h:388-420) does — promoting a left child c over n sets
c.ancestor_next to n.ancestor_next and n.ancestor_prev to c; promoting a
right child sets n.ancestor_next to c and c.ancestor_prev to
n.ancestor_prev. -/
def splayLoop : STree → List SEnt → STree
  | .lf, p => plugB p .lf
  | t, [] => t
  | .nd tl d tr, ⟨.kLeft, pd, pr⟩ :: [] =>
    .nd tl { d with anext := pd.anext } (.nd tr { pd with aprev := some d.key } pr)
  | .nd tl d tr, ⟨.kRight, pd, pl⟩ :: [] =>
    .nd (.nd pl { pd with anext := some d.key } tl) { d with aprev := pd.aprev } tr
  | .nd tl d tr, ⟨.kLeft, pd, pr⟩ :: ⟨.kLeft, gd, gr⟩ :: ps =>
    splayLoop (.nd tl { d with anext := gd.anext }
      (.nd tr { pd with aprev := some d.key, anext := gd.anext }
        (.nd pr { gd with aprev := some pd.key } gr))) ps
  | .nd tl d tr, ⟨.kRight, pd, pl⟩ :: ⟨.kRight, gd, gl⟩ :: ps =>
    splayLoop (.nd (.nd (.nd gl { gd with anext := some pd.key } pl)
      { pd with aprev := gd.aprev, anext := some d.key } tl)
      { d with aprev := gd.aprev } tr) ps
  | .nd tl d tr, ⟨.kRight, pd, pl⟩ :: ⟨.kLeft, gd, gr⟩ :: ps =>
    splayLoop (.nd (.nd pl { pd with anext := some d.key } tl)
      { d with aprev := pd.aprev, anext := gd.anext }
      (.nd tr { gd with aprev := some d.key } gr)) ps
  | .nd tl d tr, ⟨.kLeft, pd, pr⟩ :: ⟨.kRight, gd, gl⟩ :: ps =>
    splayLoop (.nd (.nd gl { gd with anext := some d.key } tl)
      { d with aprev := gd.aprev, anext := pd.anext }
      (.nd tr { pd with aprev := some d.key } pr)) ps

/-- Set the inserted flag of the root node: the insert->inserted = true
store performed after the splay (splaytree.h:140). -/
def setRootInserted : STree → STree
  | .lf => .lf
  | .nd l d r => .nd l { d with inserted := true } r

/-- SplayTree::Insert (splaytree.h:106-144): descend (rejecting an equal
key), attach the new node at the null slot reached, splay it to the root,
mark it inserted and bump the size counter. -/
def insertS (st : SplaySt) (k : Int) : SplaySt :=
  match insGo k none none [] st.tree with
  | none => st
  | some (d, p) =>
    { tree := setRootInserted (splayLoop (.nd .lf d .lf) p),
      size := st.size + 1 }

/-- The tree in the half-open window of Insert between the attachment of
the new node (splaytree.h:132) and the splay taken under the write lock
(splaytree.h:139): the new node sits at the descent's null slot with
inserted still false. -/
def insertWindow (t : STree) (k : Int) : Option STree :=
  match insGo k none none [] t with
  | none => none
  | some (d, p) => some (plugB p (.nd .lf d .lf))

/-- SplayTree::Splay of the node holding key k: the parent chain the source
walks through parent pointers is recovered by the comparator descent. -/
def splayS (k : Int) (t : STree) : STree :=
  match searchB SData.key k [] t with
  | (_, .lf) => t
  | (p, .nd l d r) => splayLoop (.nd l d r) p

/-- Modelled from the spec: SplayTree::Find.  Delete (splaytree.h:154)
calls Find(key), which is declared and defined nowhere in the repository —
the template member is never instantiated there, so the missing symbol goes
unnoticed by the compiler.  Spec section 4.1 says Delete first finds the
node and is a no-op returning false when the key is absent; the evident
intended implementation is the same locked search Contains performs, so
Find is modelled as UnlockFind. -/
def findModel (k : Int) (t : STree) : Option SData :=
  unlockFind k t

/-- UnlockSubMinimum (splaytree.h:336-344): descend left while the left
child exists and carries the inserted flag. -/
def unlockSubMin : STree → Option SData
  | .lf => none
  | .nd l d _ =>
    match l with
    | .lf => some d
    | .nd _ ld _ => if ld.inserted then unlockSubMin l else some d

/-- UnlockSubMaximum (splaytree.h:346-354). -/
def unlockSubMax : STree → Option SData
  | .lf => none
  | .nd _ d r =>
    match r with
    | .lf => some d
    | .nd _ rd _ => if rd.inserted then unlockSubMax r else some d

/-- Detach the node UnlockSubMinimum reaches inside a subtree, re-parenting
its right child into its old slot: the c->parent->child[kLeft] =
c->child[kRight] splice of Delete's deep-successor branch
(splaytree.h:197-200).  none only on the empty tree. -/
def spliceGo : STree → Option (SData × STree)
  | .lf => none
  | .nd l d r =>
    match l with
    | .lf => some (d, r)
    | .nd _ ld _ =>
      if ld.inserted then
        match spliceGo l with
        | some (c, l2) => some (c, .nd l2 d r)
        | none => none
      else some (d, r)

/-- Overwrite the root node's ancestor_next thread. -/
def setRootAnext (t : STree) (v : Option Int) : STree :=
  match t with
  | .lf => .lf
  | .nd l d r => .nd l { d with anext := v } r

/-- Overwrite the root node's ancestor_prev thread. -/
def setRootAprev (t : STree) (v : Option Int) : STree :=
  match t with
  | .lf => .lf
  | .nd l d r => .nd l { d with aprev := v } r

/-- SplayTree::Delete (splaytree.h:152-222), with the conditionally
compiled assert statements elided as in an NDEBUG build: find the node
(false when absent), splay it to the root, then remove it by one of the
three cases of the source — no left child (right child becomes root, its
ancestor_prev cleared), no right child (symmetric), or promotion of the
right subtree's minimum c, either directly when c is the root's right
child (its ancestor_prev cleared; the left subtree's root keeps its old
ancestor_next, exactly as the source leaves it) or after splicing c out of
its deeper slot, repointing the reattached subtrees' root threads at c
while c's own threads are left untouched, again as the source does. -/
def deleteS (st : SplaySt) (k : Int) : Bool × SplaySt :=
  match findModel k st.tree with
  | none => (false, st)
  | some _ =>
    match splayS k st.tree with
    | .lf => (false, st)
    | .nd L _ R =>
      let t2 :=
        match L, R with
        | .lf, _ => setRootAprev R none
        | _, .lf => setRootAnext L none
        | _, .nd rl rd rr =>
          match rl with
          | .lf => .nd L { rd with aprev := none } rr
          | .nd _ rld _ =>
            if rld.inserted then
              match spliceGo (.nd rl rd rr) with
              | some (c, r2) =>
                .nd (setRootAnext L (some c.key)) c (setRootAprev r2 (some c.key))
              | none => .lf
            else .nd L { rd with aprev := none } rr
      (true, { tree := t2, size := st.size - 1 })

/-- Locate the node holding key k by comparator descent, returning its two
subtrees and payload: the dereference of a node pointer in the model. -/
def nodeAt (k : Int) : STree → Option (STree × SData × STree)
  | .lf => none
  | .nd l d r =>
    if d.key = k then some (l, d, r)
    else if cmp3 d.key k < 0 then nodeAt k r
    else nodeAt k l

/-- Inserted flag of the node a thread pointer designates: the
node->ancestor_next->inserted read of the source; false when no node with
that key exists (the source would read freed memory there). -/
def insertedAt (t : STree) (k : Int) : Bool :=
  match nodeAt k t with
  | some (_, d, _) => d.inserted
  | none => false

/-- The ancestor_next fallback branch of UnlockNext (splaytree.h:258-261):
follow the thread only onto a node carrying the inserted flag. -/
def threadNext (t : STree) (d : SData) : Option Int :=
  match d.anext with
  | some a => if insertedAt t a then some a else none
  | none => none

/-- The ancestor_prev fallback branch of UnlockPrev (splaytree.h:269-272). -/
def threadPrev (t : STree) (d : SData) : Option Int :=
  match d.aprev with
  | some a => if insertedAt t a then some a else none
  | none => none

/-- SplayTree::UnlockNext (splaytree.h:253-262) on the node holding key k:
minimum of the right subtree when that child exists and is inserted,
otherwise the ancestor_next thread guarded by its inserted flag. -/
def unlockNextK (t : STree) (k : Int) : Option Int :=
  match nodeAt k t with
  | none => none
  | some (_, d, r) =>
    match r with
    | .nd _ rd _ =>
      if rd.inserted then (unlockSubMin r).map SData.key else threadNext t d
    | .lf => threadNext t d

/-- SplayTree::UnlockPrev (splaytree.h:264-273). -/
def unlockPrevK (t : STree) (k : Int) : Option Int :=
  match nodeAt k t with
  | none => none
  | some (l, d, _) =>
    match l with
    | .nd _ ld _ =>
      if ld.inserted then (unlockSubMax l).map SData.key else threadPrev t d
    | .lf => threadPrev t d

/-- SplayTree::First (splaytree.h:224-233): minimum of the root's left
subtree when it exists, otherwise the root itself. -/
def firstS (t : STree) : Option Int :=
  match t with
  | .lf => none
  | .nd l d _ =>
    match l with
    | .lf => some d.key
    | .nd _ _ _ => (unlockSubMin l).map SData.key

/-- SplayTree::Last (splaytree.h:235-244). -/
def lastS (t : STree) : Option Int :=
  match t with
  | .lf => none
  | .nd _ d r =>
    match r with
    | .lf => some d.key
    | .nd _ _ _ => (unlockSubMax r).map SData.key

/-- The descent loop of UnlockFindGreaterOrEqual (splaytree.h:293-305):
prev tracks the last node visited with the inserted flag set; the loop
exits on an equal comparison (current kept), on a null child, or at a node
whose inserted flag is cleared. -/
def sfgeGo (k : Int) (pv : Option SData) : STree → Option SData × Option SData
  | .lf => (none, pv)
  | .nd l d r =>
    if d.inserted = false then (some d, pv)
    else if cmp3 d.key k = 0 then (some d, some d)
    else if cmp3 d.key k < 0 then sfgeGo k (some d) r
    else sfgeGo k (some d) l

/-- The post-loop fallback of UnlockFindGreaterOrEqual (splaytree.h:309-316):
no prev means an empty descent; a prev whose key exceeds the target is the
answer; otherwise advance one step from prev via UnlockNext. -/
def sfgeFb (t : STree) (pv : Option SData) (k : Int) : Option Int :=
  match pv with
  | none => none
  | some pd => if cmp3 k pd.key < 0 then some pd.key else unlockNextK t pd.key

/-- SplayTree::UnlockFindGreaterOrEqual (splaytree.h:290-317), the engine of
Iterator::Seek. -/
def sFindGEQ (t : STree) (k : Int) : Option Int :=
  match sfgeGo k none t with
  | (some c, pv) => if c.inserted then some c.key else sfgeFb t pv k
  | (none, pv) => sfgeFb t pv k

/-- Forward iteration of the splay iterator: SeekToFirst then repeated
Next, collecting the visited keys; fuel bounds the number of steps. -/
def iterFwdS (t : STree) : Nat → Option Int → List Int
  | 0, _ => []
  | _, none => []
  | fuel + 1, some k => k :: iterFwdS t fuel (unlockNextK t k)

/-- Backward iteration of the splay iterator: SeekToLast then repeated
Prev. -/
def iterBwdS (t : STree) : Nat → Option Int → List Int
  | 0, _ => []
  | _, none => []
  | fuel + 1, some k => k :: iterBwdS t fuel (unlockPrevK t k)

/-! ### Splay-tree invariants -/

/-- Every node carries the inserted flag (holds in all states between
operations; only the window inside Insert clears it on one node). -/
def allInsB : STree → Bool
  | .lf => true
  | .nd l d r => d.inserted && allInsB l && allInsB r

/-- Thread invariant: each node's ancestor_prev/ancestor_next equal the
open-interval bounds of its slot, i.e. the nearest ancestor it lies right
of, respectively left of. -/
def thB (lo hi : Option Int) : STree → Bool
  | .lf => true
  | .nd l d r =>
    (d.aprev == lo) && (d.anext == hi) &&
    thB lo (some d.key) l && thB (some d.key) hi r

/-- BST-order invariant of the splay tree. -/
def sbstB (lo hi : Option Int) (t : STree) : Bool :=
  bstB SData.key lo hi t

/-- Well-formedness every state reachable by Insert/Delete sequences
enjoys: BST order, all inserted flags set, size counter equal to the
number of stored keys. -/
def stOkB (st : SplaySt) : Bool :=
  sbstB none none st.tree && allInsB st.tree && (st.size == (skeys st.tree).length)

/-- Full well-formedness including the thread invariant; preserved by
Insert but not by Delete. -/
def stFullB (st : SplaySt) : Bool :=
  stOkB st && thB none none st.tree

/-- A sequence of mutations on the splay tree. -/
inductive SOp where
  | ins : Int → SOp
  | del : Int → SOp
deriving DecidableEq, Repr

/-- Apply one mutation. -/
def applyOp (st : SplaySt) : SOp → SplaySt
  | .ins k => insertS st k
  | .del k => (deleteS st k).2

/-- State after a whole mutation sequence from the fresh tree. -/
def runOps (ops : List SOp) : SplaySt :=
  ops.foldl applyOp emptyS

/-- State after a sequence of inserts from the fresh tree. -/
def buildS (ks : List Int) : SplaySt :=
  ks.foldl insertS emptyS

/-! ## Zip tree (db/ziptree.h)

Node payload: the fields of ZipTree::Node (ziptree.h:27-34) other than the
parent/child pointers — the immutable key and the rank drawn at
insertion. -/

structure ZData where
  key : Int
  rank : Int
deriving DecidableEq, Repr

abbrev ZTree := BT ZData

abbrev ZEnt := Ent ZData

/-- In-order key list of a zip tree. -/
def zkeys : ZTree → List Int := keysB ZData.key

/-- ZipTree::Find (ziptree.h:39-52). -/
def zfind (k : Int) : ZTree → Option ZData
  | .lf => none
  | .nd l d r =>
    if cmp3 k d.key = 0 then some d
    else if cmp3 k d.key < 0 then zfind k l
    else zfind k r

/-- ZipTree::Contains (ziptree.h:294-298). -/
def zcontains (t : ZTree) (k : Int) : Bool :=
  (zfind k t).isSome

/-- ZipTree::size(Node*) (ziptree.h:54-59): full recursive traversal. -/
def zsizeT : ZTree → Nat
  | .lf => 0
  | .nd l _ r => zsizeT l + zsizeT r + 1

/-- ZipTree::CheckConsistency(Node*) (ziptree.h:68-86).  The parent-linkage
conjunct of the source (root equals one of root->parent's children)
compares pointers that the inductive representation keeps consistent by
construction, so it is identically true here and omitted.  Note the source
compares only each child's key against the node's own key — a local order
check — and never reads rank. -/
def zcheckConsistency : ZTree → Bool
  | .lf => true
  | .nd l d r =>
    (match l with
     | .lf => true
     | .nd _ ld _ => decide (cmp3 ld.key d.key < 0) && zcheckConsistency l) &&
    (match r with
     | .lf => true
     | .nd _ rd _ => decide (cmp3 rd.key d.key > 0) && zcheckConsistency r)

/-- Result of ZipTree::RecursiveInsert (ziptree.h:102-140).  The source
returns either the untouched root pointer (the new node was attached
deeper — deep carries the updated subtree) or the new node x itself, which
the caller detects by pointer comparison — xroot carries the current left
and right children of x. -/
inductive ZRes where
  | deep : ZTree → ZRes
  | xroot : ZTree → ZTree → ZRes
deriving DecidableEq, Repr

/-- ZipTree::RecursiveInsert (ziptree.h:102-140): descend by comparator (a
key comparing equal descends right — the source has no equality case);
when the recursion hands back x, either attach x below the current root if
its rank is too small (strict test on the left slot, non-strict on the
right), or zip the current root under x, splitting the root's subtree into
x's children, and keep returning x. -/
def recInsert (xk xr : Int) : ZTree → ZRes
  | .lf => .xroot .lf .lf
  | .nd l d r =>
    if cmp3 xk d.key < 0 then
      match recInsert xk xr l with
      | .xroot xl xrt =>
        if xr < d.rank then .deep (.nd (.nd xl ⟨xk, xr⟩ xrt) d r)
        else .xroot xl (.nd xrt d r)
      | .deep l2 => .deep (.nd l2 d r)
    else
      match recInsert xk xr r with
      | .xroot xl xrt =>
        if xr ≤ d.rank then .deep (.nd l d (.nd xl ⟨xk, xr⟩ xrt))
        else .xroot (.nd l d xl) xrt
      | .deep r2 => .deep (.nd l d r2)

/-- Node count of a RecursiveInsert result: the subtree's size in the deep
case, the sizes of x's two children plus x itself in the xroot case. -/
def zresSize : ZRes → Nat
  | .deep t => zsizeT t
  | .xroot xl xrt => zsizeT xl + zsizeT xrt + 1

/-- ZipTree::Insert (ziptree.h:287-292) with the rank passed explicitly:
the source draws it from RandomRank, an external pseudo-random source
capped at kMaxRank; every claim here holds for arbitrary ranks. -/
def zinsert (t : ZTree) (xk xr : Int) : ZTree :=
  match recInsert xk xr t with
  | .deep t2 => t2
  | .xroot xl xrt => .nd xl ⟨xk, xr⟩ xrt

/-- Tree after a sequence of (key, rank) inserts from the empty tree. -/
def buildZ (ps : List (Int × Int)) : ZTree :=
  ps.foldl (fun t q => zinsert t q.1 q.2) .lf

/-! ### Zip-tree iterator (ziptree.h:162-277)

The iterator walks parent pointers; the model recovers the parent chain of
the cursor's node by comparator descent, which coincides with the chain of
parent pointers in every tree whose parent links are consistent with its
child links (which all tree surgery in the source maintains, and
CheckConsistency validates). -/

/-- The climb of Iterator::Next (ziptree.h:188-203): move up while the node
is its parent's right child; the first ancestor reached from a left child
is the new cursor, and reaching the root from the right invalidates it. -/
def climbNext : List ZEnt → Option Int
  | [] => none
  | e :: p =>
    match e.side with
    | .kLeft => some e.d.key
    | .kRight => climbNext p

/-- The climb of Iterator::Prev (ziptree.h:218-231). -/
def climbPrev : List ZEnt → Option Int
  | [] => none
  | e :: p =>
    match e.side with
    | .kRight => some e.d.key
    | .kLeft => climbPrev p

/-- ZipTree::Iterator::Next (ziptree.h:180-208) from the node holding key
k: minimum of the right subtree when it exists, otherwise the parent
climb. -/
def znextK (t : ZTree) (k : Int) : Option Int :=
  match searchB ZData.key k [] t with
  | (_, .lf) => none
  | (p, .nd _ _ r) =>
    match r with
    | .nd _ _ _ => (leftmostD r).map ZData.key
    | .lf => climbNext p

/-- ZipTree::Iterator::Prev (ziptree.h:210-236). -/
def zprevK (t : ZTree) (k : Int) : Option Int :=
  match searchB ZData.key k [] t with
  | (_, .lf) => none
  | (p, .nd l _ _) =>
    match l with
    | .nd _ _ _ => (rightmostD l).map ZData.key
    | .lf => climbPrev p

/-- ZipTree::Iterator::SeekToFirst (ziptree.h:260-267): descend left from
the root. -/
def zfirst (t : ZTree) : Option Int :=
  (leftmostD t).map ZData.key

/-- ZipTree::Iterator::SeekToLast (ziptree.h:269-276). -/
def zlast (t : ZTree) : Option Int :=
  (rightmostD t).map ZData.key

/-- The descent of Iterator::Seek (ziptree.h:240-251): node_ is assigned
every visited node; the loop returns at an equal comparison and otherwise
runs to a null child, leaving node_ at the last visited node. -/
def zseekLast (k : Int) (pv : Option ZData) : ZTree → Option ZData
  | .lf => pv
  | .nd l d r =>
    if cmp3 k d.key = 0 then some d
    else if cmp3 k d.key < 0 then zseekLast k (some d) l
    else zseekLast k (some d) r

/-- ZipTree::Iterator::Seek (ziptree.h:238-258): after the descent, an
empty tree leaves the cursor at its previous value (node_ is not reset);
otherwise, when the target still compares greater than the reached node's
key, one Next() step fixes the cursor up. -/
def zseek (t : ZTree) (cur0 : Option Int) (k : Int) : Option Int :=
  match zseekLast k none t with
  | none => cur0
  | some d =>
    if cmp3 k d.key = 0 then some d.key
    else if cmp3 k d.key > 0 then znextK t d.key
    else some d.key

/-- Forward iteration of the zip iterator with fuel. -/
def iterFwdZ (t : ZTree) : Nat → Option Int → List Int
  | 0, _ => []
  | _, none => []
  | fuel + 1, some k => k :: iterFwdZ t fuel (znextK t k)

/-- Backward iteration of the zip iterator with fuel. -/
def iterBwdZ (t : ZTree) : Nat → Option Int → List Int
  | 0, _ => []
  | _, none => []
  | fuel + 1, some k => k :: iterBwdZ t fuel (zprevK t k)

/-- Generic fueled cursor iteration: the common recursion scheme of the
four iterator walks above, abstracted over the step function. -/
def iterG (f : Int → Option Int) : Nat → Option Int → List Int
  | 0, _ => []
  | _, none => []
  | fuel + 1, some k => k :: iterG f fuel (f k)

/-! ### Zip-tree invariants -/

/-- Rank of the root node of a subtree. -/
def rootRank : ZTree → Option Int
  | .lf => none
  | .nd _ d _ => some d.rank

/-- Strict rank dominance over an optional child rank. -/
def rankLtB (a : Option Int) (b : Int) : Bool :=
  match a with
  | none => true
  | some x => decide (x < b)

/-- Non-strict rank dominance over an optional child rank. -/
def rankLeB (a : Option Int) (b : Int) : Bool :=
  match a with
  | none => true
  | some x => decide (x ≤ b)

/-- Max-heap rank invariant with the tie-break the insertion code enforces:
a node's rank is strictly greater than its left child's rank and greater
than or equal to its right child's rank. -/
def heapB : ZTree → Bool
  | .lf => true
  | .nd l d r =>
    rankLtB (rootRank l) d.rank && rankLeB (rootRank r) d.rank && heapB l && heapB r

/-- BST-order invariant of the zip tree. -/
def zbstB (lo hi : Option Int) (t : ZTree) : Bool :=
  bstB ZData.key lo hi t

/-- The iterator cursor of either tree: key() dereferences the node_
pointer with no validity assertion (splaytree.h:439-442, ziptree.h:175-178);
a null cursor yields no key — the source's dereference of nullptr has no
defined result. -/
def iterKey (kf : α → Int) (cur : Option α) : Option Int :=
  cur.map kf

/-- Iterator::Valid of either tree (splaytree.h:444-447, ziptree.h:170-173). -/
def iterValid (cur : Option α) : Bool :=
  cur.isSome

/-! ## Auxiliary specification-side definitions used by the proofs -/

/-- Prop form of the lower-bound check. -/
def loP (lo : Option Int) (x : Int) : Prop :=
  ∀ a, lo = some a → a < x

/-- Prop form of the upper-bound check. -/
def hiP (x : Int) (hi : Option Int) : Prop :=
  ∀ b, hi = some b → x < b

/-- First option, falling back on the second when the first is empty. -/
def optOr (a b : Option Int) : Option Int :=
  match a with
  | some x => some x
  | none => b

/-- Thread consistency of a parent chain: every entry's threads equal the
bounds of its own slot and its sibling subtree is thread-consistent in
its slot. -/
def thPathB (lo hi : Option Int) : List SEnt → Bool
  | [] => true
  | e :: p =>
    let b := pBounds SData.key p (lo, hi)
    thPathB lo hi p &&
    (match e.side with
     | .kLeft =>
       (e.d.aprev == b.1) && (e.d.anext == b.2) && thB (some e.d.key) b.2 e.sib
     | .kRight =>
       (e.d.aprev == b.1) && (e.d.anext == b.2) && thB b.1 (some e.d.key) e.sib)

/-- All payloads along a parent chain carry the inserted flag. -/
def allInsEnts : List SEnt → Bool
  | [] => true
  | e :: p => e.d.inserted && allInsB e.sib && allInsEnts p

/-- All nodes except possibly the root carry the inserted flag. -/
def allInsX : STree → Bool
  | .lf => true
  | .nd l _ r => allInsB l && allInsB r

/-- Upper bound of the slot of the node holding key k, refined along the
comparator descent starting from the bound h of the whole tree. -/
def hiAt (kf : α → Int) (k : Int) (h : Option Int) : BT α → Option Int
  | .lf => h
  | .nd l a r =>
    if cmp3 (kf a) k = 0 then h
    else if cmp3 (kf a) k < 0 then hiAt kf k h r
    else hiAt kf k (some (kf a)) l

/-- Lower bound of the slot of the node holding key k. -/
def loAt (kf : α → Int) (k : Int) (h : Option Int) : BT α → Option Int
  | .lf => h
  | .nd l a r =>
    if cmp3 (kf a) k = 0 then h
    else if cmp3 (kf a) k < 0 then loAt kf k (some (kf a)) r
    else loAt kf k h l

/-- Whether the node holding key k has an empty right subtree. -/
def rEmptyAt (kf : α → Int) (k : Int) : BT α → Bool
  | .lf => false
  | .nd l a r =>
    if cmp3 (kf a) k = 0 then (match r with | .lf => true | .nd _ _ _ => false)
    else if cmp3 (kf a) k < 0 then rEmptyAt kf k r
    else rEmptyAt kf k l

/-- Whether the node holding key k has an empty left subtree. -/
def lEmptyAt (kf : α → Int) (k : Int) : BT α → Bool
  | .lf => false
  | .nd l a r =>
    if cmp3 (kf a) k = 0 then (match l with | .lf => true | .nd _ _ _ => false)
    else if cmp3 (kf a) k < 0 then lEmptyAt kf k r
    else lEmptyAt kf k l

/-- Reference cursor walk over a plain list of keys: the abstract iteration
each tree's Next must refine. -/
def iterList (xs : List Int) : Nat → Option Int → List Int
  | 0, _ => []
  | _, none => []
  | fuel + 1, some k => k :: iterList xs fuel (listSucc xs k)

/-- Reference backward cursor walk. -/
def iterListB (xs : List Int) : Nat → Option Int → List Int
  | 0, _ => []
  | _, none => []
  | fuel + 1, some k => k :: iterListB xs fuel (listPred xs k)

/-- Local parent-child key ordering: what CheckConsistency actually
verifies, stated independently of the source's control flow — each left
child's key is below and each right child's key above its parent's key. -/
def zlocalB : ZTree → Bool
  | .lf => true
  | .nd l d r =>
    (match l with | .lf => true | .nd _ ld _ => decide (ld.key < d.key)) &&
    (match r with | .lf => true | .nd _ rd _ => decide (d.key < rd.key)) &&
    zlocalB l && zlocalB r

/-- A lawful comparator that identifies distinct keys: two keys compare
equal exactly when their halves agree.  Used to exhibit the divergence of
UnlockFind's operator== probe from the comparator's notion of equality. -/
def cmpHalf (a b : Int) : Int :=
  cmp3 (a / 2) (b / 2)

/-! # Theorems

Basic facts about the comparator, the bound checks, and the equivalence of
the BST invariant with sortedness of the in-order key sequence. -/

theorem cmp3_eq_zero {a b : Int} : cmp3 a b = 0 ↔ a = b := by
  unfold cmp3; split_ifs <;> (try simp) <;> omega

theorem cmp3_neg {a b : Int} : cmp3 a b < 0 ↔ a < b := by
  unfold cmp3; split_ifs <;> (try simp) <;> omega

theorem cmp3_pos {a b : Int} : cmp3 a b > 0 ↔ b < a := by
  unfold cmp3; split_ifs <;> (try simp) <;> omega

@[simp] theorem loP_none (x : Int) : loP none x := by
  intro a h; cases h

@[simp] theorem loP_some {a x : Int} : loP (some a) x ↔ a < x := by
  simp [loP]

@[simp] theorem hiP_none (x : Int) : hiP x none := by
  intro a h; cases h

@[simp] theorem hiP_some {b x : Int} : hiP x (some b) ↔ x < b := by
  simp [hiP]

theorem loLt_iff {lo : Option Int} {k : Int} : loLt lo k = true ↔ loP lo k := by
  cases lo <;> simp [loLt]

theorem ltHi_iff {hi : Option Int} {k : Int} : ltHi k hi = true ↔ hiP k hi := by
  cases hi <;> simp [ltHi]

theorem bst_bounds {α : Type} (kf : α → Int) (t : BT α) : ∀ lo hi,
    bstB kf lo hi t = true → ∀ x ∈ keysB kf t, loP lo x ∧ hiP x hi := by
  induction t with
  | lf => intro lo hi _ x hx; simp [keysB] at hx
  | nd l a r ihl ihr =>
    intro lo hi h x hx
    simp only [bstB, Bool.and_eq_true] at h
    obtain ⟨⟨⟨hlo, hhi⟩, hl⟩, hr⟩ := h
    rw [loLt_iff] at hlo
    rw [ltHi_iff] at hhi
    simp only [keysB, List.mem_append, List.mem_cons] at hx
    rcases hx with hx | rfl | hx
    · have hb := ihl _ _ hl x hx
      exact ⟨hb.1, fun b hb' => (hb.2 (kf a) rfl).trans (hhi b hb')⟩
    · exact ⟨hlo, hhi⟩
    · have hb := ihr _ _ hr x hx
      exact ⟨fun b hb' => (hlo b hb').trans (hb.1 (kf a) rfl), hb.2⟩

theorem bst_pairwise {α : Type} (kf : α → Int) (t : BT α) : ∀ lo hi,
    bstB kf lo hi t = true → (keysB kf t).Pairwise (· < ·) := by
  induction t with
  | lf => intro lo hi _; simp [keysB]
  | nd l a r ihl ihr =>
    intro lo hi h
    simp only [bstB, Bool.and_eq_true] at h
    obtain ⟨⟨⟨_, _⟩, hl⟩, hr⟩ := h
    have hla : ∀ x ∈ keysB kf l, x < kf a :=
      fun x hx => (bst_bounds kf l _ _ hl x hx).2 (kf a) rfl
    have har : ∀ y ∈ keysB kf r, kf a < y :=
      fun y hy => (bst_bounds kf r _ _ hr y hy).1 (kf a) rfl
    simp only [keysB]
    rw [List.pairwise_append]
    refine ⟨ihl _ _ hl, ?_, ?_⟩
    · rw [List.pairwise_cons]
      exact ⟨har, ihr _ _ hr⟩
    · intro x hx y hy
      rcases List.mem_cons.mp hy with rfl | hy
      · exact hla x hx
      · exact (hla x hx).trans (har y hy)

theorem pairwise_bst {α : Type} (kf : α → Int) (t : BT α) : ∀ lo hi,
    (keysB kf t).Pairwise (· < ·) →
    (∀ x ∈ keysB kf t, loP lo x ∧ hiP x hi) →
    bstB kf lo hi t = true := by
  induction t with
  | lf => intro lo hi _ _; rfl
  | nd l a r ihl ihr =>
    intro lo hi hp hb
    simp only [keysB] at hp hb
    rw [List.pairwise_append] at hp
    obtain ⟨hpl, hpar, hcross⟩ := hp
    rw [List.pairwise_cons] at hpar
    obtain ⟨har, hpr⟩ := hpar
    have hba := hb (kf a) (by simp)
    simp only [bstB, Bool.and_eq_true]
    refine ⟨⟨⟨loLt_iff.mpr hba.1, ltHi_iff.mpr hba.2⟩, ?_⟩, ?_⟩
    · refine ihl _ _ hpl fun x hx => ⟨(hb x (by simp [hx])).1, fun b hb' => ?_⟩
      cases hb'
      exact hcross x hx (kf a) (by simp)
    · refine ihr _ _ hpr fun x hx => ⟨fun b hb' => ?_, (hb x (by simp [hx])).2⟩
      cases hb'
      exact har x hx

/-! ## Parent chains: plugging, searching, slot bounds -/

theorem plugB_append {α : Type} : ∀ (p q : List (Ent α)) (t : BT α),
    plugB (p ++ q) t = plugB q (plugB p t) := by
  intro p
  induction p with
  | nil => intro q t; rfl
  | cons e p ih =>
    intro q t
    cases e with
    | mk side d sib => cases side <;> simp [plugB, ih]

theorem pBounds_append {α : Type} (kf : α → Int) : ∀ (p q : List (Ent α)) (B : Option Int × Option Int),
    pBounds kf (p ++ q) B = pBounds kf p (pBounds kf q B) := by
  intro p
  induction p with
  | nil => intro q B; rfl
  | cons e p ih =>
    intro q B
    cases e with
    | mk side d sib => cases side <;> simp [pBounds, ih]

theorem keysB_plug_congr {α : Type} (kf : α → Int) : ∀ (p : List (Ent α)) {X Y : BT α},
    keysB kf X = keysB kf Y → keysB kf (plugB p X) = keysB kf (plugB p Y) := by
  intro p
  induction p with
  | nil => intro X Y h; exact h
  | cons e p ih =>
    intro X Y h
    cases e with
    | mk side d sib =>
      cases side <;> simp only [plugB] <;> exact ih (by simp [keysB, h])

theorem searchB_acc {α : Type} (kf : α → Int) (k : Int) : ∀ (t : BT α) (acc : List (Ent α)),
    searchB kf k acc t = ((searchB kf k [] t).1 ++ acc, (searchB kf k [] t).2) := by
  intro t
  induction t with
  | lf => intro acc; simp [searchB]
  | nd l a r ihl ihr =>
    intro acc
    simp only [searchB]
    split_ifs
    · simp
    · rw [ihr, ihr [⟨.kRight, a, l⟩]]; simp
    · rw [ihl, ihl [⟨.kLeft, a, r⟩]]; simp

theorem searchB_plug {α : Type} (kf : α → Int) (k : Int) : ∀ (t : BT α),
    plugB (searchB kf k [] t).1 (searchB kf k [] t).2 = t := by
  intro t
  induction t with
  | lf => simp [searchB, plugB]
  | nd l a r ihl ihr =>
    simp only [searchB]
    split_ifs
    · simp [plugB]
    · rw [searchB_acc, plugB_append]; simp [plugB, ihr]
    · rw [searchB_acc, plugB_append]; simp [plugB, ihl]

theorem searchB_found {α : Type} (kf : α → Int) {k : Int} : ∀ (t : BT α) {lo hi : Option Int},
    bstB kf lo hi t = true → k ∈ keysB kf t →
    ∃ p l a r, searchB kf k [] t = (p, .nd l a r) ∧ kf a = k := by
  intro t
  induction t with
  | lf => intro lo hi _ hk; simp [keysB] at hk
  | nd l a r ihl ihr =>
    intro lo hi hb hk
    simp only [bstB, Bool.and_eq_true] at hb
    obtain ⟨⟨⟨_, _⟩, hbl⟩, hbr⟩ := hb
    simp only [searchB]
    by_cases h1 : cmp3 (kf a) k = 0
    · rw [if_pos h1]
      exact ⟨[], l, a, r, rfl, cmp3_eq_zero.mp h1⟩
    · rw [if_neg h1]
      simp only [keysB, List.mem_append, List.mem_cons] at hk
      rcases hk with hk | rfl | hk
      · have hka : k < kf a := (bst_bounds kf l _ _ hbl k hk).2 (kf a) rfl
        have h2 : ¬ cmp3 (kf a) k < 0 := by rw [cmp3_neg]; omega
        rw [if_neg h2, searchB_acc]
        obtain ⟨p, l', a', r', heq, hk'⟩ := ihl hbl hk
        rw [heq]
        exact ⟨p ++ [⟨.kLeft, a, r⟩], l', a', r', rfl, hk'⟩
      · exact absurd (cmp3_eq_zero.mpr rfl) h1
      · have hka : kf a < k := (bst_bounds kf r _ _ hbr k hk).1 (kf a) rfl
        have h2 : cmp3 (kf a) k < 0 := cmp3_neg.mpr hka
        rw [if_pos h2, searchB_acc]
        obtain ⟨p, l', a', r', heq, hk'⟩ := ihr hbr hk
        rw [heq]
        exact ⟨p ++ [⟨.kRight, a, l⟩], l', a', r', rfl, hk'⟩

theorem searchB_absent {α : Type} (kf : α → Int) {k : Int} : ∀ (t : BT α) {lo hi : Option Int},
    bstB kf lo hi t = true → k ∉ keysB kf t →
    (searchB kf k [] t).2 = .lf := by
  intro t
  induction t with
  | lf => intro lo hi _ _; simp [searchB]
  | nd l a r ihl ihr =>
    intro lo hi hb hk
    simp only [bstB, Bool.and_eq_true] at hb
    obtain ⟨⟨⟨_, _⟩, hbl⟩, hbr⟩ := hb
    simp only [keysB, List.mem_append, List.mem_cons, not_or] at hk
    obtain ⟨hk1, hk2, hk3⟩ := hk
    simp only [searchB]
    have h1 : ¬ cmp3 (kf a) k = 0 := by
      rw [cmp3_eq_zero]; exact fun h => hk2 h.symm
    rw [if_neg h1]
    split_ifs
    · rw [searchB_acc]; exact ihr hbr hk3
    · rw [searchB_acc]; exact ihl hbl hk1

theorem searchB_bounds_eq {α : Type} (kf : α → Int) (k : Int) : ∀ (t : BT α) (B : Option Int × Option Int),
    pBounds kf (searchB kf k [] t).1 B = (loAt kf k B.1 t, hiAt kf k B.2 t) := by
  intro t
  induction t with
  | lf => intro B; simp [searchB, pBounds, loAt, hiAt]
  | nd l a r ihl ihr =>
    intro B
    simp only [searchB, loAt, hiAt]
    split_ifs
    · simp [pBounds]
    · rw [searchB_acc, pBounds_append]
      simp only [pBounds]
      exact ihr (some (kf a), B.2)
    · rw [searchB_acc, pBounds_append]
      simp only [pBounds]
      exact ihl (B.1, some (kf a))

/-! ## The splay loop: keys, root identity, threads, inserted flags -/

theorem splayLoop_keys : ∀ (p : List SEnt) (f : STree),
    keysB SData.key (splayLoop f p) = keysB SData.key (plugB p f)
  | [], f => by cases f <;> simp [splayLoop, plugB]
  | [e], .lf => by simp [splayLoop]
  | e1 :: e2 :: ps, .lf => by simp [splayLoop]
  | [⟨.kLeft, pd, pr⟩], .nd tl d tr => by
    simp [splayLoop, plugB, keysB, List.append_assoc]
  | [⟨.kRight, pd, pl⟩], .nd tl d tr => by
    simp [splayLoop, plugB, keysB, List.append_assoc]
  | ⟨.kLeft, pd, pr⟩ :: ⟨.kLeft, gd, gr⟩ :: ps, .nd tl d tr => by
    simp only [splayLoop, plugB]
    rw [splayLoop_keys ps]
    exact keysB_plug_congr _ _ (by simp [keysB, List.append_assoc])
  | ⟨.kRight, pd, pl⟩ :: ⟨.kRight, gd, gl⟩ :: ps, .nd tl d tr => by
    simp only [splayLoop, plugB]
    rw [splayLoop_keys ps]
    exact keysB_plug_congr _ _ (by simp [keysB, List.append_assoc])
  | ⟨.kRight, pd, pl⟩ :: ⟨.kLeft, gd, gr⟩ :: ps, .nd tl d tr => by
    simp only [splayLoop, plugB]
    rw [splayLoop_keys ps]
    exact keysB_plug_congr _ _ (by simp [keysB, List.append_assoc])
  | ⟨.kLeft, pd, pr⟩ :: ⟨.kRight, gd, gl⟩ :: ps, .nd tl d tr => by
    simp only [splayLoop, plugB]
    rw [splayLoop_keys ps]
    exact keysB_plug_congr _ _ (by simp [keysB, List.append_assoc])

theorem splayLoop_root : ∀ (p : List SEnt) (l : STree) (d : SData) (r : STree),
    ∃ l2 r2 ap an, splayLoop (.nd l d r) p =
      .nd l2 { key := d.key, inserted := d.inserted, aprev := ap, anext := an } r2
  | [], l, d, r => ⟨l, r, d.aprev, d.anext, by simp [splayLoop]⟩
  | [⟨.kLeft, pd, pr⟩], l, d, r =>
    ⟨l, .nd r { pd with aprev := some d.key } pr, d.aprev, pd.anext, by simp [splayLoop]⟩
  | [⟨.kRight, pd, pl⟩], l, d, r =>
    ⟨.nd pl { pd with anext := some d.key } l, r, pd.aprev, d.anext, by simp [splayLoop]⟩
  | ⟨.kLeft, pd, pr⟩ :: ⟨.kLeft, gd, gr⟩ :: ps, l, d, r => by
    simp only [splayLoop]
    exact splayLoop_root ps l _ _
  | ⟨.kRight, pd, pl⟩ :: ⟨.kRight, gd, gl⟩ :: ps, l, d, r => by
    simp only [splayLoop]
    exact splayLoop_root ps _ _ r
  | ⟨.kRight, pd, pl⟩ :: ⟨.kLeft, gd, gr⟩ :: ps, l, d, r => by
    simp only [splayLoop]
    exact splayLoop_root ps _ _ _
  | ⟨.kLeft, pd, pr⟩ :: ⟨.kRight, gd, gl⟩ :: ps, l, d, r => by
    simp only [splayLoop]
    exact splayLoop_root ps _ _ _

theorem thB_plug : ∀ (p : List SEnt) (X : STree) (lo hi : Option Int),
    thB lo hi (plugB p X) = true ↔
      (thPathB lo hi p = true ∧
       thB (pBounds SData.key p (lo, hi)).1 (pBounds SData.key p (lo, hi)).2 X = true) := by
  intro p
  induction p with
  | nil => intro X lo hi; simp [thPathB, pBounds, plugB]
  | cons e p ih =>
    intro X lo hi
    cases e with
    | mk side d sib =>
      cases side
      case kLeft =>
        simp only [plugB]
        rw [ih]
        simp only [thPathB, pBounds, thB, Bool.and_eq_true, beq_iff_eq]
        tauto
      case kRight =>
        simp only [plugB]
        rw [ih]
        simp only [thPathB, pBounds, thB, Bool.and_eq_true, beq_iff_eq]
        tauto

theorem splayLoop_th : ∀ (p : List SEnt) (f : STree) (lo hi : Option Int),
    thB lo hi (plugB p f) = true → thB lo hi (splayLoop f p) = true
  | [], f, lo, hi => by cases f <;> simp [splayLoop, plugB]
  | [e], .lf, lo, hi => by simp [splayLoop]
  | e1 :: e2 :: ps, .lf, lo, hi => by simp [splayLoop]
  | [⟨.kLeft, pd, pr⟩], .nd tl d tr, lo, hi => by
    simp only [plugB, splayLoop, thB, Bool.and_eq_true, beq_iff_eq]
    tauto
  | [⟨.kRight, pd, pl⟩], .nd tl d tr, lo, hi => by
    simp only [plugB, splayLoop, thB, Bool.and_eq_true, beq_iff_eq]
    tauto
  | ⟨.kLeft, pd, pr⟩ :: ⟨.kLeft, gd, gr⟩ :: ps, .nd tl d tr, lo, hi => by
    intro h
    simp only [splayLoop]
    apply splayLoop_th ps
    simp only [plugB] at h
    rw [thB_plug] at h ⊢
    refine ⟨h.1, ?_⟩
    have h2 := h.2
    simp only [thB, Bool.and_eq_true, beq_iff_eq] at h2 ⊢
    tauto
  | ⟨.kRight, pd, pl⟩ :: ⟨.kRight, gd, gl⟩ :: ps, .nd tl d tr, lo, hi => by
    intro h
    simp only [splayLoop]
    apply splayLoop_th ps
    simp only [plugB] at h
    rw [thB_plug] at h ⊢
    refine ⟨h.1, ?_⟩
    have h2 := h.2
    simp only [thB, Bool.and_eq_true, beq_iff_eq] at h2 ⊢
    tauto
  | ⟨.kRight, pd, pl⟩ :: ⟨.kLeft, gd, gr⟩ :: ps, .nd tl d tr, lo, hi => by
    intro h
    simp only [splayLoop]
    apply splayLoop_th ps
    simp only [plugB] at h
    rw [thB_plug] at h ⊢
    refine ⟨h.1, ?_⟩
    have h2 := h.2
    simp only [thB, Bool.and_eq_true, beq_iff_eq] at h2 ⊢
    tauto
  | ⟨.kLeft, pd, pr⟩ :: ⟨.kRight, gd, gl⟩ :: ps, .nd tl d tr, lo, hi => by
    intro h
    simp only [splayLoop]
    apply splayLoop_th ps
    simp only [plugB] at h
    rw [thB_plug] at h ⊢
    refine ⟨h.1, ?_⟩
    have h2 := h.2
    simp only [thB, Bool.and_eq_true, beq_iff_eq] at h2 ⊢
    tauto

theorem allInsB_plug_iff : ∀ (p : List SEnt) (X : STree),
    allInsB (plugB p X) = true ↔ (allInsEnts p = true ∧ allInsB X = true) := by
  intro p
  induction p with
  | nil => intro X; simp [allInsEnts, plugB]
  | cons e p ih =>
    intro X
    cases e with
    | mk side d sib =>
      cases side <;> simp only [plugB] <;> rw [ih] <;>
        simp only [allInsEnts, allInsB, Bool.and_eq_true] <;> tauto

theorem splayLoop_allIns : ∀ (p : List SEnt) (f : STree),
    allInsB (splayLoop f p) = true ↔ allInsB (plugB p f) = true
  | [], f => by cases f <;> simp [splayLoop, plugB]
  | [e], .lf => by simp [splayLoop]
  | e1 :: e2 :: ps, .lf => by simp [splayLoop]
  | [⟨.kLeft, pd, pr⟩], .nd tl d tr => by
    simp only [splayLoop, plugB, allInsB, Bool.and_eq_true]
    tauto
  | [⟨.kRight, pd, pl⟩], .nd tl d tr => by
    simp only [splayLoop, plugB, allInsB, Bool.and_eq_true]
    tauto
  | ⟨.kLeft, pd, pr⟩ :: ⟨.kLeft, gd, gr⟩ :: ps, .nd tl d tr => by
    simp only [splayLoop, plugB]
    rw [splayLoop_allIns ps, allInsB_plug_iff, allInsB_plug_iff]
    simp only [allInsB, Bool.and_eq_true]
    tauto
  | ⟨.kRight, pd, pl⟩ :: ⟨.kRight, gd, gl⟩ :: ps, .nd tl d tr => by
    simp only [splayLoop, plugB]
    rw [splayLoop_allIns ps, allInsB_plug_iff, allInsB_plug_iff]
    simp only [allInsB, Bool.and_eq_true]
    tauto
  | ⟨.kRight, pd, pl⟩ :: ⟨.kLeft, gd, gr⟩ :: ps, .nd tl d tr => by
    simp only [splayLoop, plugB]
    rw [splayLoop_allIns ps, allInsB_plug_iff, allInsB_plug_iff]
    simp only [allInsB, Bool.and_eq_true]
    tauto
  | ⟨.kLeft, pd, pr⟩ :: ⟨.kRight, gd, gl⟩ :: ps, .nd tl d tr => by
    simp only [splayLoop, plugB]
    rw [splayLoop_allIns ps, allInsB_plug_iff, allInsB_plug_iff]
    simp only [allInsB, Bool.and_eq_true]
    tauto

theorem splayLoop_insX : ∀ (p : List SEnt) (fl : STree) (fd : SData) (fr : STree),
    allInsEnts p = true → allInsB fl = true → allInsB fr = true →
    allInsX (splayLoop (.nd fl fd fr) p) = true
  | [], fl, fd, fr => by
    intro _ h1 h2
    simp [splayLoop, allInsX, h1, h2]
  | [⟨.kLeft, pd, pr⟩], fl, fd, fr => by
    intro he h1 h2
    simp only [allInsEnts, Bool.and_eq_true] at he
    simp [splayLoop, allInsX, allInsB, h1, h2, he.1.1, he.1.2]
  | [⟨.kRight, pd, pl⟩], fl, fd, fr => by
    intro he h1 h2
    simp only [allInsEnts, Bool.and_eq_true] at he
    simp [splayLoop, allInsX, allInsB, h1, h2, he.1.1, he.1.2]
  | ⟨.kLeft, pd, pr⟩ :: ⟨.kLeft, gd, gr⟩ :: ps, fl, fd, fr => by
    intro he h1 h2
    simp only [allInsEnts, Bool.and_eq_true] at he
    simp only [splayLoop]
    apply splayLoop_insX ps _ _ _ he.2.2 h1
    simp [allInsB, h2, he.1.1, he.1.2, he.2.1.1, he.2.1.2]
  | ⟨.kRight, pd, pl⟩ :: ⟨.kRight, gd, gl⟩ :: ps, fl, fd, fr => by
    intro he h1 h2
    simp only [allInsEnts, Bool.and_eq_true] at he
    simp only [splayLoop]
    apply splayLoop_insX ps _ _ _ he.2.2 _ h2
    simp [allInsB, h1, he.1.1, he.1.2, he.2.1.1, he.2.1.2]
  | ⟨.kRight, pd, pl⟩ :: ⟨.kLeft, gd, gr⟩ :: ps, fl, fd, fr => by
    intro he h1 h2
    simp only [allInsEnts, Bool.and_eq_true] at he
    simp only [splayLoop]
    apply splayLoop_insX ps _ _ _ he.2.2
    · simp [allInsB, h1, he.1.1, he.1.2]
    · simp [allInsB, h2, he.2.1.1, he.2.1.2]
  | ⟨.kLeft, pd, pr⟩ :: ⟨.kRight, gd, gl⟩ :: ps, fl, fd, fr => by
    intro he h1 h2
    simp only [allInsEnts, Bool.and_eq_true] at he
    simp only [splayLoop]
    apply splayLoop_insX ps _ _ _ he.2.2
    · simp [allInsB, h1, he.2.1.1, he.2.1.2]
    · simp [allInsB, h2, he.1.1, he.1.2]

/-! ## The insert descent -/

theorem insGo_acc (k : Int) : ∀ (t : STree) (ap an : Option Int) (acc : List SEnt),
    insGo k ap an acc t = (insGo k ap an [] t).map (fun x => (x.1, x.2 ++ acc)) := by
  intro t
  induction t with
  | lf => intro ap an acc; simp [insGo]
  | nd l d r ihl ihr =>
    intro ap an acc
    simp only [insGo]
    split_ifs
    · simp
    · rw [ihr, ihr _ _ [⟨.kRight, d, l⟩]]
      cases insGo k (some d.key) d.anext [] r <;> simp
    · rw [ihl, ihl _ _ [⟨.kLeft, d, r⟩]]
      cases insGo k d.aprev (some d.key) [] l <;> simp

theorem insGo_dup (k : Int) : ∀ (t : STree) {lo hi : Option Int} (ap an : Option Int),
    bstB SData.key lo hi t = true → k ∈ keysB SData.key t →
    insGo k ap an [] t = none := by
  intro t
  induction t with
  | lf => intro lo hi _ _ _ hk; simp [keysB] at hk
  | nd l d r ihl ihr =>
    intro lo hi ap an hb hk
    simp only [bstB, Bool.and_eq_true] at hb
    obtain ⟨⟨⟨_, _⟩, hbl⟩, hbr⟩ := hb
    simp only [keysB, List.mem_append, List.mem_cons] at hk
    simp only [insGo]
    rcases hk with hk | rfl | hk
    · have hka : k < d.key := (bst_bounds _ l _ _ hbl k hk).2 d.key rfl
      rw [if_neg (by rw [cmp3_eq_zero]; omega), if_neg (by rw [cmp3_neg]; omega)]
      rw [insGo_acc]
      rw [ihl _ _ hbl hk]
      rfl
    · rw [if_pos (cmp3_eq_zero.mpr rfl)]
    · have hka : d.key < k := (bst_bounds _ r _ _ hbr k hk).1 d.key rfl
      rw [if_neg (by rw [cmp3_eq_zero]; omega), if_pos (by rw [cmp3_neg]; omega)]
      rw [insGo_acc]
      rw [ihr _ _ hbr hk]
      rfl

theorem insGo_spec (k : Int) : ∀ (t : STree) {lo hi : Option Int} (ap an : Option Int),
    bstB SData.key lo hi t = true → k ∉ keysB SData.key t →
    ∃ d p pre post, insGo k ap an [] t = some (d, p) ∧ d.key = k ∧ d.inserted = false ∧
      keysB SData.key t = pre ++ post ∧
      (∀ X : STree, keysB SData.key (plugB p X) = pre ++ keysB SData.key X ++ post) ∧
      (∀ x ∈ pre, x < k) ∧ (∀ x ∈ post, k < x) := by
  intro t
  induction t with
  | lf =>
    intro lo hi ap an _ _
    exact ⟨_, [], [], [], rfl, rfl, rfl, rfl, fun X => by simp [plugB, keysB], by simp, by simp⟩
  | nd l d r ihl ihr =>
    intro lo hi ap an hb hk
    simp only [bstB, Bool.and_eq_true] at hb
    obtain ⟨⟨⟨_, _⟩, hbl⟩, hbr⟩ := hb
    simp only [keysB, List.mem_append, List.mem_cons, not_or] at hk
    obtain ⟨hk1, hk2, hk3⟩ := hk
    simp only [insGo]
    rw [if_neg (by rw [cmp3_eq_zero]; exact fun h => hk2 h)]
    rcases lt_trichotomy d.key k with hdk | hdk | hdk
    · rw [if_pos (cmp3_neg.mpr hdk), insGo_acc]
      obtain ⟨d2, p, pre, post, heq, hdkey, hins, hkeys, hplug, hpre, hpost⟩ :=
        ihr (some d.key) d.anext hbr hk3
      rw [heq]
      simp only [Option.map_some']
      refine ⟨d2, p ++ [⟨.kRight, d, l⟩], keysB SData.key l ++ d.key :: pre, post,
        rfl, hdkey, hins, by simp [hkeys, keysB], ?_, ?_, hpost⟩
      · intro X
        rw [plugB_append]
        simp [plugB, keysB, hplug X, List.append_assoc]
      · intro x hx
        simp only [List.mem_append, List.mem_cons] at hx
        rcases hx with hx | rfl | hx
        · exact lt_trans ((bst_bounds _ l _ _ hbl x hx).2 d.key rfl) hdk
        · exact hdk
        · exact hpre x hx
    · exact absurd hdk.symm hk2
    · rw [if_neg (by rw [cmp3_neg]; omega), insGo_acc]
      obtain ⟨d2, p, pre, post, heq, hdkey, hins, hkeys, hplug, hpre, hpost⟩ :=
        ihl d.aprev (some d.key) hbl hk1
      rw [heq]
      simp only [Option.map_some']
      refine ⟨d2, p ++ [⟨.kLeft, d, r⟩], pre, post ++ d.key :: keysB SData.key r,
        rfl, hdkey, hins, by simp [hkeys, keysB], ?_, hpre, ?_⟩
      · intro X
        rw [plugB_append]
        simp [plugB, keysB, hplug X, List.append_assoc]
      · intro x hx
        simp only [List.mem_append, List.mem_cons] at hx
        rcases hx with hx | rfl | hx
        · exact hpost x hx
        · exact hdk
        · exact lt_trans hdk ((bst_bounds _ r _ _ hbr x hx).1 d.key rfl)

theorem insGo_window_th (k : Int) : ∀ (t : STree) {lo hi : Option Int} {d : SData} {p : List SEnt},
    bstB SData.key lo hi t = true → thB lo hi t = true →
    insGo k lo hi [] t = some (d, p) →
    thB lo hi (plugB p (.nd .lf d .lf)) = true := by
  intro t
  induction t with
  | lf =>
    intro lo hi d p _ _ heq
    simp only [insGo, Option.some.injEq, Prod.mk.injEq] at heq
    obtain ⟨rfl, rfl⟩ := heq
    simp [plugB, thB]
  | nd l d0 r ihl ihr =>
    intro lo hi d p hb ht heq
    simp only [bstB, Bool.and_eq_true] at hb
    obtain ⟨⟨⟨_, _⟩, hbl⟩, hbr⟩ := hb
    simp only [thB, Bool.and_eq_true, beq_iff_eq] at ht
    obtain ⟨⟨⟨hap, han⟩, htl⟩, htr⟩ := ht
    simp only [insGo] at heq
    split_ifs at heq
    · rw [han, insGo_acc] at heq
      cases h2 : insGo k (some d0.key) hi [] r with
      | none => rw [h2] at heq; simp at heq
      | some x =>
        rw [h2] at heq
        simp only [Option.map_some', Option.some.injEq, Prod.mk.injEq] at heq
        obtain ⟨rfl, rfl⟩ := heq
        rw [plugB_append]
        simp only [plugB, thB, Bool.and_eq_true, beq_iff_eq]
        exact ⟨⟨⟨hap, han⟩, htl⟩, ihr hbr htr h2⟩
    · rw [hap, insGo_acc] at heq
      cases h2 : insGo k lo (some d0.key) [] l with
      | none => rw [h2] at heq; simp at heq
      | some x =>
        rw [h2] at heq
        simp only [Option.map_some', Option.some.injEq, Prod.mk.injEq] at heq
        obtain ⟨rfl, rfl⟩ := heq
        rw [plugB_append]
        simp only [plugB, thB, Bool.and_eq_true, beq_iff_eq]
        exact ⟨⟨⟨hap, han⟩, ihl hbl htl h2⟩, htr⟩

theorem allInsEnts_append : ∀ (p q : List SEnt),
    allInsEnts (p ++ q) = true ↔ (allInsEnts p = true ∧ allInsEnts q = true) := by
  intro p
  induction p with
  | nil => intro q; simp [allInsEnts]
  | cons e p ih =>
    intro q
    constructor
    · intro h
      simp only [List.cons_append, allInsEnts, Bool.and_eq_true] at h
      obtain ⟨⟨h1, h2⟩, h3⟩ := h
      rcases (ih q).mp h3 with ⟨hp, hq⟩
      exact ⟨by simp [allInsEnts, h1, h2, hp], hq⟩
    · rintro ⟨hp, hq⟩
      simp only [allInsEnts, Bool.and_eq_true] at hp
      simp only [List.cons_append, allInsEnts, Bool.and_eq_true]
      exact ⟨⟨hp.1.1, hp.1.2⟩, (ih q).mpr ⟨hp.2, hq⟩⟩

theorem insGo_ents (k : Int) : ∀ (t : STree) (ap an : Option Int) {d : SData} {p : List SEnt},
    allInsB t = true → insGo k ap an [] t = some (d, p) →
    allInsEnts p = true := by
  intro t
  induction t with
  | lf =>
    intro ap an d p _ heq
    simp only [insGo, Option.some.injEq, Prod.mk.injEq] at heq
    obtain ⟨rfl, rfl⟩ := heq
    rfl
  | nd l d0 r ihl ihr =>
    intro ap an d p hins heq
    simp only [allInsB, Bool.and_eq_true] at hins
    obtain ⟨⟨hd0, hl⟩, hr⟩ := hins
    simp only [insGo] at heq
    split_ifs at heq
    · rw [insGo_acc] at heq
      cases h2 : insGo k (some d0.key) d0.anext [] r with
      | none => rw [h2] at heq; simp at heq
      | some x =>
        rw [h2] at heq
        simp only [Option.map_some', Option.some.injEq, Prod.mk.injEq] at heq
        obtain ⟨rfl, rfl⟩ := heq
        rw [allInsEnts_append]
        exact ⟨ihr _ _ hr h2, by simp [allInsEnts, hd0, hl]⟩
    · rw [insGo_acc] at heq
      cases h2 : insGo k d0.aprev (some d0.key) [] l with
      | none => rw [h2] at heq; simp at heq
      | some x =>
        rw [h2] at heq
        simp only [Option.map_some', Option.some.injEq, Prod.mk.injEq] at heq
        obtain ⟨rfl, rfl⟩ := heq
        rw [allInsEnts_append]
        exact ⟨ihl _ _ hl h2, by simp [allInsEnts, hd0, hr]⟩

/-! ## Insert: preservation of the invariants -/

theorem skeys_def (t : STree) : skeys t = keysB SData.key t := rfl

theorem sbstB_def (lo hi : Option Int) (t : STree) : sbstB lo hi t = bstB SData.key lo hi t := rfl

theorem keys_setRootInserted (t : STree) :
    keysB SData.key (setRootInserted t) = keysB SData.key t := by
  cases t <;> simp [setRootInserted, keysB]

theorem thB_setRootInserted (t : STree) (lo hi : Option Int) :
    thB lo hi (setRootInserted t) = thB lo hi t := by
  cases t <;> simp [setRootInserted, thB]

theorem pairwise_mid {pre post : List Int} {k : Int}
    (h : (pre ++ post).Pairwise (· < ·))
    (h1 : ∀ x ∈ pre, x < k) (h2 : ∀ x ∈ post, k < x) :
    (pre ++ k :: post).Pairwise (· < ·) := by
  rw [List.pairwise_append] at h
  rw [List.pairwise_append]
  refine ⟨h.1, ?_, ?_⟩
  · rw [List.pairwise_cons]
    exact ⟨h2, h.2.1⟩
  · intro x hx y hy
    rcases List.mem_cons.mp hy with rfl | hy
    · exact h1 x hx
    · exact h.2.2 x hx y hy

theorem insGo_some_fresh {k : Int} {t : STree} {lo hi ap an : Option Int} {z : SData × List SEnt}
    (hb : bstB SData.key lo hi t = true) (h : insGo k ap an [] t = some z) :
    k ∉ keysB SData.key t := by
  intro hk
  rw [insGo_dup k t ap an hb hk] at h
  cases h

theorem insertS_dup {st : SplaySt} {k : Int} {lo hi : Option Int}
    (hb : bstB SData.key lo hi st.tree = true) (hk : k ∈ keysB SData.key st.tree) :
    insertS st k = st := by
  simp [insertS, insGo_dup k st.tree none none hb hk]

theorem insertS_keys {st : SplaySt} {k : Int}
    (hb : bstB SData.key none none st.tree = true) (hk : k ∉ keysB SData.key st.tree) :
    ∃ pre post, keysB SData.key st.tree = pre ++ post ∧
      keysB SData.key (insertS st k).tree = pre ++ k :: post ∧
      (∀ x ∈ pre, x < k) ∧ (∀ x ∈ post, k < x) ∧ (insertS st k).size = st.size + 1 := by
  obtain ⟨d, p, pre, post, heq, hdk, _, hkeys, hplug, hpre, hpost⟩ :=
    insGo_spec k st.tree none none hb hk
  refine ⟨pre, post, hkeys, ?_, hpre, hpost, ?_⟩
  · simp only [insertS, heq]
    rw [keys_setRootInserted, splayLoop_keys, hplug]
    simp [keysB, hdk]
  · simp [insertS, heq]

theorem insertS_stOk {st : SplaySt} {k : Int} (h : stOkB st = true) :
    stOkB (insertS st k) = true := by
  simp only [stOkB, sbstB, Bool.and_eq_true, beq_iff_eq] at h
  obtain ⟨⟨hb, hins⟩, hsz⟩ := h
  by_cases hk : k ∈ keysB SData.key st.tree
  · rw [insertS_dup hb hk]
    simp only [stOkB, sbstB, Bool.and_eq_true, beq_iff_eq]
    exact ⟨⟨hb, hins⟩, hsz⟩
  · obtain ⟨d, p, pre, post, heq, hdk, _, hkeys, hplug, hpre, hpost⟩ :=
      insGo_spec k st.tree none none hb hk
    have hkeys2 : keysB SData.key (insertS st k).tree = pre ++ k :: post := by
      simp only [insertS, heq]
      rw [keys_setRootInserted, splayLoop_keys, hplug]
      simp [keysB, hdk]
    simp only [stOkB, sbstB, Bool.and_eq_true, beq_iff_eq]
    refine ⟨⟨?_, ?_⟩, ?_⟩
    · apply pairwise_bst
      · rw [hkeys2]
        apply pairwise_mid _ hpre hpost
        rw [← hkeys]
        exact bst_pairwise _ _ _ _ hb
      · intro x _
        exact ⟨loP_none x, hiP_none x⟩
    · simp only [insertS, heq]
      obtain ⟨l2, r2, ap2, an2, hroot⟩ := splayLoop_root p .lf d .lf
      rw [hroot]
      have hx : allInsX (splayLoop (.nd .lf d .lf) p) = true := by
        apply splayLoop_insX p .lf d .lf (insGo_ents k st.tree none none hins heq) rfl rfl
      rw [hroot] at hx
      simp only [allInsX, Bool.and_eq_true] at hx
      simp [setRootInserted, allInsB, hx.1, hx.2]
    · simp only [insertS, heq] at hkeys2 ⊢
      simp only [skeys_def] at hsz ⊢
      rw [hkeys2, hsz, hkeys]
      simp only [List.length_append, List.length_cons]
      omega

theorem insertS_stFull {st : SplaySt} {k : Int} (h : stFullB st = true) :
    stFullB (insertS st k) = true := by
  simp only [stFullB, Bool.and_eq_true] at h
  obtain ⟨hok, hth⟩ := h
  have hb : bstB SData.key none none st.tree = true := by
    simp only [stOkB, sbstB, Bool.and_eq_true] at hok
    exact hok.1.1
  rw [stFullB, Bool.and_eq_true]
  refine ⟨insertS_stOk hok, ?_⟩
  by_cases hk : k ∈ keysB SData.key st.tree
  · rw [insertS_dup hb hk]
    exact hth
  · obtain ⟨d, p, _, _, heq, _, _, _, _, _, _⟩ := insGo_spec k st.tree none none hb hk
    simp only [insertS, heq]
    rw [thB_setRootInserted]
    exact splayLoop_th p _ none none (insGo_window_th k st.tree hb hth heq)

/-! ## Zip insert always allocates and links one more node -/

theorem recInsert_size (xk xr : Int) : ∀ t : ZTree,
    zresSize (recInsert xk xr t) = zsizeT t + 1 := by
  intro t
  induction t with
  | lf => simp [recInsert, zresSize, zsizeT]
  | nd l d r ihl ihr =>
    by_cases h1 : cmp3 xk d.key < 0
    · cases hl : recInsert xk xr l with
      | deep l2 =>
        rw [hl] at ihl
        simp only [recInsert, if_pos h1, hl, zresSize, zsizeT] at ihl ⊢
        omega
      | xroot xl xrt =>
        rw [hl] at ihl
        by_cases h2 : xr < d.rank
        · simp only [recInsert, if_pos h1, hl, if_pos h2, zresSize, zsizeT] at ihl ⊢
          omega
        · simp only [recInsert, if_pos h1, hl, if_neg h2, zresSize, zsizeT] at ihl ⊢
          omega
    · cases hr : recInsert xk xr r with
      | deep r2 =>
        rw [hr] at ihr
        simp only [recInsert, if_neg h1, hr, zresSize, zsizeT] at ihr ⊢
        omega
      | xroot xl xrt =>
        rw [hr] at ihr
        by_cases h2 : xr ≤ d.rank
        · simp only [recInsert, if_neg h1, hr, if_pos h2, zresSize, zsizeT] at ihr ⊢
          omega
        · simp only [recInsert, if_neg h1, hr, if_neg h2, zresSize, zsizeT] at ihr ⊢
          omega

theorem zinsert_size (t : ZTree) (xk xr : Int) :
    zsizeT (zinsert t xk xr) = zsizeT t + 1 := by
  have h := recInsert_size xk xr t
  rw [zinsert]
  cases hrec : recInsert xk xr t with
  | deep t2 =>
    rw [hrec] at h
    simpa [zresSize] using h
  | xroot xl xrt =>
    rw [hrec] at h
    simpa [zresSize, zsizeT] using h

/-! ## Claim C1 -/

/-- C1 (amended): for the splay tree, inserting a key that compares equal
to a stored key is a complete no-op — the state, hence the stored keys, the
tree shape, every node's payload, and the size counter, is unchanged (the
speculative node of the source is deleted before the tree is touched).  The
zip tree however never rejects a key: every Insert, a duplicate included,
links exactly one more node into the tree (the claimed release/no-op does
not exist there). -/
theorem claimC1 (st : SplaySt) (k : Int) (t : ZTree) (xk xr : Int)
    (hb : sbstB none none st.tree = true) (hk : k ∈ skeys st.tree) :
    insertS st k = st ∧ zsizeT (zinsert t xk xr) = zsizeT t + 1 :=
  ⟨insertS_dup hb hk, zinsert_size t xk xr⟩

/-- C1 witness: a concrete splay state with key 5 stored, and a concrete
zip tree. -/
theorem claimC1_witness :
    insertS (buildS [5, 3]) 5 = buildS [5, 3] ∧
    zsizeT (zinsert (zinsert .lf 5 0) 8 0) = zsizeT (zinsert .lf 5 0) + 1 :=
  claimC1 (buildS [5, 3]) 5 (zinsert .lf 5 0) 8 0 (by decide) (by decide)

/-- C1 counterexample: inserting the already-present key 5 into a
one-node zip tree is not a no-op — the tree afterwards holds two nodes
(both with key 5), so the stored-key multiset, the shape and the size all
change, refuting the claim for the ZipTree. -/
theorem claimC1_cex :
    zsizeT (zinsert (zinsert .lf (5 : Int) 0) 5 0) = 2 ∧
    zinsert (zinsert .lf (5 : Int) 0) 5 0 ≠ zinsert .lf (5 : Int) 0 := by
  constructor
  · decide
  · decide

/-! ## Claim C3 -/

theorem insertS_root {st : SplaySt} {k : Int}
    (hb : bstB SData.key none none st.tree = true) (hk : k ∉ keysB SData.key st.tree) :
    ∃ l d r, (insertS st k).tree = .nd l d r ∧ d.key = k ∧ d.inserted = true := by
  obtain ⟨d, p, _, _, heq, hdk, _, _, _, _, _⟩ := insGo_spec k st.tree none none hb hk
  simp only [insertS, heq]
  obtain ⟨l2, r2, ap2, an2, hroot⟩ := splayLoop_root p .lf d .lf
  rw [hroot]
  exact ⟨l2, _, r2, rfl, hdk, rfl⟩

/-- C3: after a successful (non-duplicate) Insert(k), the splay tree's
root node is the newly inserted node: it holds key k and carries the
inserted flag that only the tail of Insert sets.  Being the root, its
parent pointer is null (root_->parent == nullptr is the representation
invariant of the root position, restored by every rotation of the splay). -/
theorem claimC3 (st : SplaySt) (k : Int)
    (hb : sbstB none none st.tree = true) (hk : k ∉ skeys st.tree) :
    ∃ l d r, (insertS st k).tree = .nd l d r ∧ d.key = k ∧ d.inserted = true :=
  insertS_root hb hk

/-- C3 witness: inserting the fresh key 4 into the splay tree built from
[5, 3, 8] leaves a root node holding 4 with its inserted flag set. -/
theorem claimC3_witness :
    ∃ l d r, (insertS (buildS [5, 3, 8]) 4).tree = .nd l d r ∧
      d.key = 4 ∧ d.inserted = true :=
  claimC3 (buildS [5, 3, 8]) 4 (by decide) (by decide)

/-! ## Claim C8 -/

/-- C8 (amended): CheckConsistency verifies exactly the local parent-child
key ordering (each left child's key below, each right child's key above,
its parent's own key; the parent-linkage conjunct of the source is
intrinsic to the representation).  It inspects neither ranks nor any
deeper order relation, so it cannot detect a heap violation. -/
theorem claimC8 : ∀ t : ZTree, zcheckConsistency t = true ↔ zlocalB t = true := by
  intro t
  induction t with
  | lf => simp [zcheckConsistency, zlocalB]
  | nd l d r ihl ihr =>
    cases l with
    | lf =>
      cases r with
      | lf => simp [zcheckConsistency, zlocalB]
      | nd rl rd rr =>
        show (true && (decide (cmp3 rd.key d.key > 0) && zcheckConsistency (.nd rl rd rr))) = true ↔
          (((true && decide (d.key < rd.key)) && zlocalB .lf) && zlocalB (.nd rl rd rr)) = true
        simp only [Bool.true_and, Bool.and_true, Bool.and_eq_true, decide_eq_true_eq,
          cmp3_pos, ihr, zlocalB]
    | nd ll ld lr =>
      cases r with
      | lf =>
        show ((decide (cmp3 ld.key d.key < 0) && zcheckConsistency (.nd ll ld lr)) && true) = true ↔
          (((decide (ld.key < d.key) && true) && zlocalB (.nd ll ld lr)) && zlocalB .lf) = true
        simp only [Bool.true_and, Bool.and_true, Bool.and_eq_true, decide_eq_true_eq,
          cmp3_neg, ihl, zlocalB]
      | nd rl rd rr =>
        show ((decide (cmp3 ld.key d.key < 0) && zcheckConsistency (.nd ll ld lr)) &&
            (decide (cmp3 rd.key d.key > 0) && zcheckConsistency (.nd rl rd rr))) = true ↔
          (((decide (ld.key < d.key) && decide (d.key < rd.key)) &&
            zlocalB (.nd ll ld lr)) && zlocalB (.nd rl rd rr)) = true
        simp only [Bool.and_eq_true, decide_eq_true_eq, cmp3_neg, cmp3_pos, ihl, ihr]
        tauto

/-- C8 counterexample: a two-node tree whose left child outranks its
parent (rank 5 over rank 0) violates the heap invariant, yet
CheckConsistency accepts it, refuting the claim that CheckConsistency
returns false whenever some node's rank violates the heap order. -/
theorem claimC8_cex :
    zcheckConsistency (.nd (.nd .lf ⟨1, 5⟩ .lf) ⟨2, 0⟩ .lf) = true ∧
    heapB (.nd (.nd .lf ⟨1, 5⟩ .lf) ⟨2, 0⟩ .lf) = false := by
  decide

/-! ## Claim C9 -/

/-- C9: both iterators are constructed with a null cursor
(splaytree.h:433-437, ziptree.h:168), on which Valid() reports false; the
accompanying key() accessors (splaytree.h:439-442, ziptree.h:175-178)
contain no assertion at all — they dereference node_ directly, so an
invalid cursor yields no stored key: the dereference of the null cursor is
undefined behaviour, not the assert/abort the claim describes. -/
theorem claimC9 :
    iterValid (none : Option SData) = false ∧
    iterKey SData.key (none : Option SData) = none ∧
    iterValid (none : Option ZData) = false ∧
    iterKey ZData.key (none : Option ZData) = none :=
  ⟨rfl, rfl, rfl, rfl⟩

/-! ## Claim C10 -/

/-- C10: under the canonical comparator of the embedding the precondition
holds definitionally (cmp3 a b = 0 iff a = b, theorem cmp3_eq_zero), and
Contains(k) is true immediately after a successful Insert(k): the insert
splays the new node to the root, where UnlockFind's operator== probe hits
it at once.  With the comparator cmpHalf, which reports equality of
distinct keys 2 and 3, the precondition fails and the two sides disagree:
Insert's descent treats 3 as a duplicate of the stored key 2 (a no-op,
so Insert considers 3 a member) while UnlockFind — whose probe is
operator== but whose descent direction trusts the comparator — walks past
the node and reports 3 absent. -/
theorem claimC10 (st : SplaySt) (k : Int)
    (hb : sbstB none none st.tree = true) (hk : k ∉ skeys st.tree) :
    containsS (insertS st k).tree k = true ∧
    (pInsDup cmpHalf 3 (.nd .lf ⟨2, true, none, none⟩ .lf) = true ∧
     pUnlockFind cmpHalf 3 (.nd .lf ⟨2, true, none, none⟩ .lf) = none) := by
  refine ⟨?_, by decide, by decide⟩
  obtain ⟨l, d, r, ht, hdk, hdi⟩ := insertS_root hb hk
  rw [ht]
  simp [containsS, unlockFind, pUnlockFind, hdi, hdk]

/-! ## Successor and predecessor through slot bounds

The two iterators compute a key's neighbour the same way: the minimum of
the right subtree when it exists, and otherwise the upper bound of the
node's slot — read off the thread pointer in the splay tree and recomputed
by the parent climb in the zip tree. -/

theorem optOr_none (b : Option Int) : optOr none b = b := rfl

theorem optOr_some (a : Int) (b : Option Int) : optOr (some a) b = some a := rfl

theorem optOr_eq (a b : Option Int) : optOr a b = a.or b := by
  cases a <;> rfl

theorem keysB_ne_nil {α : Type} (kf : α → Int) (l : BT α) (a : α) (r : BT α) :
    keysB kf (.nd l a r) ≠ [] := by
  simp [keysB]

theorem listSucc_append (xs ys : List Int) (k : Int) :
    listSucc (xs ++ ys) k = optOr (listSucc xs k) (listSucc ys k) := by
  simp only [listSucc, List.find?_append, optOr_eq]

theorem listPred_append (xs ys : List Int) (k : Int) :
    listPred (xs ++ ys) k = optOr (listPred ys k) (listPred xs k) := by
  simp only [listPred, List.reverse_append, List.find?_append, optOr_eq]

theorem listSucc_cons (x : Int) (xs : List Int) (k : Int) :
    listSucc (x :: xs) k = if k < x then some x else listSucc xs k := by
  rw [listSucc, List.find?_cons]
  split_ifs with h <;> simp [listSucc, h]

theorem listPred_cons (x : Int) (xs : List Int) (k : Int) :
    listPred (x :: xs) k = optOr (listPred xs k) (if x < k then some x else none) := by
  rw [listPred, List.reverse_cons, List.find?_append]
  cases hx : xs.reverse.find? (fun a => decide (a < k)) <;>
    split_ifs with h <;> simp [listPred, optOr, Option.orElse, hx, List.find?, h]

theorem listSucc_all_gt {xs : List Int} {k : Int} (h : ∀ x ∈ xs, k < x) :
    listSucc xs k = xs.head? := by
  cases xs with
  | nil => rfl
  | cons x xs => simp [listSucc, List.find?_cons, h x (by simp)]

theorem listSucc_all_lt {xs : List Int} {k : Int} (h : ∀ x ∈ xs, x < k) :
    listSucc xs k = none := by
  induction xs with
  | nil => rfl
  | cons x xs ih =>
    rw [listSucc_cons, if_neg (by have := h x (by simp); omega)]
    exact ih fun y hy => h y (by simp [hy])

theorem listPred_all_lt {xs : List Int} {k : Int} (h : ∀ x ∈ xs, x < k) :
    listPred xs k = xs.getLast? := by
  induction xs with
  | nil => rfl
  | cons x xs ih =>
    rw [listPred_cons, ih fun y hy => h y (by simp [hy]), if_pos (h x (by simp)),
      List.getLast?_cons]
    cases xs.getLast? <;> rfl

theorem listPred_all_gt {xs : List Int} {k : Int} (h : ∀ x ∈ xs, k < x) :
    listPred xs k = none := by
  induction xs with
  | nil => rfl
  | cons x xs ih =>
    rw [listPred_cons, if_neg (by have := h x (by simp); omega), ih fun y hy => h y (by simp [hy])]
    rfl

theorem leftmost_head {α : Type} (kf : α → Int) : ∀ t : BT α,
    (leftmostD t).map kf = (keysB kf t).head? := by
  intro t
  induction t with
  | lf => rfl
  | nd l a r ihl _ =>
    cases l with
    | lf => simp [leftmostD, keysB]
    | nd ll la lr =>
      rw [show leftmostD (.nd (.nd ll la lr) a r) = leftmostD (.nd ll la lr) from rfl, ihl]
      simp only [keysB, List.head?_append]
      cases h : (keysB kf (BT.nd ll la lr)).head? with
      | none =>
        exact absurd (List.head?_eq_none_iff.mp h) (keysB_ne_nil kf ll la lr)
      | some y => cases (keysB kf ll).head? <;> rfl

theorem rightmost_last {α : Type} (kf : α → Int) : ∀ t : BT α,
    (rightmostD t).map kf = (keysB kf t).getLast? := by
  intro t
  induction t with
  | lf => rfl
  | nd l a r _ ihr =>
    cases r with
    | lf =>
      show some (kf a) = (keysB kf l ++ [kf a]).getLast?
      rw [List.getLast?_concat]
    | nd rl ra rr =>
      rw [show rightmostD (.nd l a (.nd rl ra rr)) = rightmostD (.nd rl ra rr) from rfl, ihr]
      show _ = (keysB kf l ++ kf a :: keysB kf (BT.nd rl ra rr)).getLast?
      rw [List.getLast?_append, List.getLast?_cons]
      cases h : (keysB kf (BT.nd rl ra rr)).getLast? with
      | none =>
        have h2 := List.getLast?_eq_getLast (keysB kf (BT.nd rl ra rr)) (keysB_ne_nil kf rl ra rr)
        rw [h] at h2
        cases h2
      | some y => rfl

theorem optOr_absorb (x : Option Int) (c : Int) (y : Option Int) :
    optOr (optOr x (some c)) y = optOr x (some c) := by
  cases x <;> rfl

theorem succ_at_node {α : Type} (kf : α → Int) (k : Int) : ∀ (t : BT α) {lo hi : Option Int}
    (fb fb2 : Option Int), bstB kf lo hi t = true →
    ∀ {p : List (Ent α)} {l : BT α} {a : α} {r : BT α},
    searchB kf k [] t = (p, .nd l a r) →
    kf a = k ∧
    optOr (listSucc (keysB kf t) k) fb = optOr (keysB kf r).head? (hiAt kf k fb t) ∧
    optOr (listPred (keysB kf t) k) fb2 = optOr (keysB kf l).getLast? (loAt kf k fb2 t) := by
  intro t
  induction t with
  | lf =>
    intro lo hi fb fb2 _ p l a r heq
    simp only [searchB, Prod.mk.injEq] at heq
    cases heq.2
  | nd l0 a0 r0 ihl ihr =>
    intro lo hi fb fb2 hb p l a r heq
    simp only [bstB, Bool.and_eq_true] at hb
    obtain ⟨⟨⟨_, _⟩, hbl⟩, hbr⟩ := hb
    have hla : ∀ x ∈ keysB kf l0, x < kf a0 :=
      fun x hx => (bst_bounds kf l0 _ _ hbl x hx).2 (kf a0) rfl
    have har : ∀ x ∈ keysB kf r0, kf a0 < x :=
      fun x hx => (bst_bounds kf r0 _ _ hbr x hx).1 (kf a0) rfl
    simp only [searchB] at heq
    by_cases c0 : cmp3 (kf a0) k = 0
    · rw [if_pos c0] at heq
      simp only [Prod.mk.injEq, BT.nd.injEq] at heq
      obtain ⟨hp, rfl, rfl, rfl⟩ := heq
      have hak : kf a0 = k := cmp3_eq_zero.mp c0
      refine ⟨hak, ?_, ?_⟩
      · rw [show keysB kf (BT.nd l0 a0 r0) = keysB kf l0 ++ kf a0 :: keysB kf r0 from rfl]
        rw [listSucc_append, listSucc_cons, if_neg (by omega),
          listSucc_all_lt (by rw [hak] at hla; exact hla),
          listSucc_all_gt (fun x hx => by have h2 := har x hx; omega), optOr_none]
        rw [show hiAt kf k fb (BT.nd l0 a0 r0) = fb from by simp [hiAt, c0]]
      · rw [show keysB kf (BT.nd l0 a0 r0) = keysB kf l0 ++ kf a0 :: keysB kf r0 from rfl]
        rw [listPred_append, listPred_cons, if_neg (by omega),
          listPred_all_gt (fun x hx => by have h2 := har x hx; omega),
          listPred_all_lt (by rw [hak] at hla; exact hla), optOr_none, optOr_none]
        rw [show loAt kf k fb2 (BT.nd l0 a0 r0) = fb2 from by simp [loAt, c0]]
    · rw [if_neg c0] at heq
      by_cases c1 : cmp3 (kf a0) k < 0
      · -- descend right
        have hak : kf a0 < k := cmp3_neg.mp c1
        rw [if_pos c1, searchB_acc] at heq
        cases hsr : searchB kf k [] r0 with
        | mk p' f' =>
          rw [hsr] at heq
          simp only [Prod.mk.injEq] at heq
          obtain ⟨hp, hf⟩ := heq
          rw [hf] at hsr
          obtain ⟨hak2, hsucc, hpred⟩ := ihr fb (some (kf a0)) hbr hsr
          refine ⟨hak2, ?_, ?_⟩
          · rw [show keysB kf (BT.nd l0 a0 r0) = keysB kf l0 ++ kf a0 :: keysB kf r0 from rfl]
            rw [listSucc_append, listSucc_cons, if_neg (by omega),
              listSucc_all_lt (fun x hx => lt_trans (hla x hx) hak), optOr_none]
            rw [show hiAt kf k fb (BT.nd l0 a0 r0) = hiAt kf k fb r0 from by
              simp [hiAt, c0, c1]]
            exact hsucc
          · rw [show keysB kf (BT.nd l0 a0 r0) = keysB kf l0 ++ kf a0 :: keysB kf r0 from rfl]
            rw [listPred_append, listPred_cons, if_pos hak,
              listPred_all_lt (fun x hx => lt_trans (hla x hx) hak)]
            rw [show loAt kf k fb2 (BT.nd l0 a0 r0) = loAt kf k (some (kf a0)) r0 from by
              simp [loAt, c0, c1]]
            rw [optOr_absorb, optOr_absorb]
            exact hpred
      · -- descend left
        have hak : k < kf a0 := by
          rcases lt_trichotomy k (kf a0) with h | h | h
          · exact h
          · exact absurd (cmp3_eq_zero.mpr h.symm) c0
          · exact absurd (cmp3_neg.mpr h) c1
        rw [if_neg c1, searchB_acc] at heq
        cases hsl : searchB kf k [] l0 with
        | mk p' f' =>
          rw [hsl] at heq
          simp only [Prod.mk.injEq] at heq
          obtain ⟨hp, hf⟩ := heq
          rw [hf] at hsl
          obtain ⟨hak2, hsucc, hpred⟩ := ihl (some (kf a0)) fb2 hbl hsl
          refine ⟨hak2, ?_, ?_⟩
          · rw [show keysB kf (BT.nd l0 a0 r0) = keysB kf l0 ++ kf a0 :: keysB kf r0 from rfl]
            rw [listSucc_append, listSucc_cons, if_pos hak]
            rw [show hiAt kf k fb (BT.nd l0 a0 r0) = hiAt kf k (some (kf a0)) l0 from by
              simp [hiAt, c0, c1]]
            rw [optOr_absorb]
            exact hsucc
          · rw [show keysB kf (BT.nd l0 a0 r0) = keysB kf l0 ++ kf a0 :: keysB kf r0 from rfl]
            rw [listPred_append, listPred_cons, if_neg (by omega),
              listPred_all_gt (fun x hx => lt_trans hak (har x hx)), optOr_none, optOr_none]
            rw [show loAt kf k fb2 (BT.nd l0 a0 r0) = loAt kf k fb2 l0 from by
              simp [loAt, c0, c1]]
            exact hpred

theorem optOr_none_right (x : Option Int) : optOr x none = x := by
  cases x <;> rfl

theorem head?_of_node {α : Type} (kf : α → Int) (l : BT α) (a : α) (r : BT α) :
    ∃ y, (keysB kf (.nd l a r)).head? = some y := by
  cases h : (keysB kf (.nd l a r)).head? with
  | none => exact absurd (List.head?_eq_none_iff.mp h) (keysB_ne_nil kf l a r)
  | some y => exact ⟨y, rfl⟩

theorem getLast?_of_node {α : Type} (kf : α → Int) (l : BT α) (a : α) (r : BT α) :
    ∃ y, (keysB kf (.nd l a r)).getLast? = some y := by
  cases h : (keysB kf (.nd l a r)).getLast? with
  | none =>
    have h2 := List.getLast?_eq_getLast (keysB kf (.nd l a r)) (keysB_ne_nil kf l a r)
    rw [h] at h2
    cases h2
  | some y => exact ⟨y, rfl⟩

theorem nodeAt_eq_searchB (k : Int) : ∀ t : STree,
    nodeAt k t = (match (searchB SData.key k [] t).2 with
      | .nd l d r => some (l, d, r)
      | .lf => none) := by
  intro t
  induction t with
  | lf => rfl
  | nd l d r ihl ihr =>
    simp only [nodeAt, searchB]
    by_cases h0 : d.key = k
    · rw [if_pos h0, if_pos (show cmp3 (SData.key d) k = 0 from cmp3_eq_zero.mpr h0)]
    · rw [if_neg h0, if_neg (show ¬ cmp3 (SData.key d) k = 0 from
        fun hc => h0 (cmp3_eq_zero.mp hc))]
      by_cases h1 : cmp3 d.key k < 0
      · rw [if_pos h1, if_pos (show cmp3 (SData.key d) k < 0 from h1), searchB_acc, ihr]
      · rw [if_neg h1, if_neg (show ¬ cmp3 (SData.key d) k < 0 from h1), searchB_acc, ihl]

theorem unlockSubMin_allIns : ∀ t : STree, allInsB t = true →
    unlockSubMin t = leftmostD t := by
  intro t
  induction t with
  | lf => intro _; rfl
  | nd l d r ihl _ =>
    intro h
    simp only [allInsB, Bool.and_eq_true] at h
    cases l with
    | lf => rfl
    | nd ll ld lr =>
      have hld : ld.inserted = true := by
        have h2 := h.1.2
        simp only [allInsB, Bool.and_eq_true] at h2
        exact h2.1.1
      show (if ld.inserted = true then unlockSubMin (.nd ll ld lr) else some d) = _
      rw [if_pos hld]
      exact ihl h.1.2

theorem unlockSubMax_allIns : ∀ t : STree, allInsB t = true →
    unlockSubMax t = rightmostD t := by
  intro t
  induction t with
  | lf => intro _; rfl
  | nd l d r _ ihr =>
    intro h
    simp only [allInsB, Bool.and_eq_true] at h
    cases r with
    | lf => rfl
    | nd rl rd rr =>
      have hrd : rd.inserted = true := by
        have h2 := h.2
        simp only [allInsB, Bool.and_eq_true] at h2
        exact h2.1.1
      show (if rd.inserted = true then unlockSubMax (.nd rl rd rr) else some d) = _
      rw [if_pos hrd]
      exact ihr h.2

theorem searchB_allIns {k : Int} {t : STree} {p : List SEnt} {l : STree} {d : SData} {r : STree}
    (hins : allInsB t = true) (h : searchB SData.key k [] t = (p, .nd l d r)) :
    allInsEnts p = true ∧ d.inserted = true ∧ allInsB l = true ∧ allInsB r = true := by
  have hplug := searchB_plug SData.key k t
  rw [h] at hplug
  rw [← hplug, allInsB_plug_iff] at hins
  obtain ⟨he, hn⟩ := hins
  simp only [allInsB, Bool.and_eq_true] at hn
  exact ⟨he, hn.1.1, hn.1.2, hn.2⟩

theorem insertedAt_mem {t : STree} {a : Int} {lo hi : Option Int}
    (hb : bstB SData.key lo hi t = true) (hins : allInsB t = true)
    (ha : a ∈ keysB SData.key t) : insertedAt t a = true := by
  obtain ⟨p, l, d, r, heq, hdk⟩ := searchB_found SData.key t hb ha
  have h2 := searchB_allIns hins heq
  rw [insertedAt, nodeAt_eq_searchB, heq]
  exact h2.2.1

theorem unlockNextK_succ {t : STree} {k : Int}
    (hb : bstB SData.key none none t = true) (hth : thB none none t = true)
    (hins : allInsB t = true) (hk : k ∈ keysB SData.key t) :
    unlockNextK t k = listSucc (keysB SData.key t) k := by
  obtain ⟨p, l, d, r, heq, hdk⟩ := searchB_found SData.key t hb hk
  obtain ⟨hents, hdins, hinsl, hinsr⟩ := searchB_allIns hins heq
  obtain ⟨hak, hsucc, _⟩ := succ_at_node SData.key k t none none hb heq
  have hplug := searchB_plug SData.key k t
  rw [heq] at hplug
  have hth2 : thB none none (plugB p (.nd l d r)) = true := by rw [hplug]; exact hth
  rw [thB_plug] at hth2
  have hbounds := searchB_bounds_eq SData.key k t (none, none)
  rw [heq] at hbounds
  have hdthreads := hth2.2
  rw [hbounds] at hdthreads
  simp only [thB, Bool.and_eq_true, beq_iff_eq] at hdthreads
  have hanext : d.anext = hiAt SData.key k none t := hdthreads.1.1.2
  rw [unlockNextK, nodeAt_eq_searchB, heq]
  cases r with
  | lf =>
    rw [optOr_none_right, show (keysB SData.key (BT.lf : STree)).head? = none from rfl,
      optOr_none] at hsucc
    show threadNext t d = _
    rw [threadNext, hanext, ← hsucc]
    cases hls : listSucc (keysB SData.key t) k with
    | none => rfl
    | some a =>
      show (if insertedAt t a = true then some a else none) = some a
      rw [if_pos (insertedAt_mem hb hins (List.mem_of_find?_eq_some hls))]
  | nd rl rd rr =>
    have hrd : rd.inserted = true := by
      simp only [allInsB, Bool.and_eq_true] at hinsr
      exact hinsr.1.1
    show (if rd.inserted = true then _ else threadNext t d) = _
    rw [if_pos hrd, unlockSubMin_allIns _ hinsr, leftmost_head]
    rw [optOr_none_right] at hsucc
    obtain ⟨y, hy⟩ := head?_of_node SData.key rl rd rr
    rw [hy] at hsucc ⊢
    rw [hsucc]
    rfl

theorem unlockPrevK_pred {t : STree} {k : Int}
    (hb : bstB SData.key none none t = true) (hth : thB none none t = true)
    (hins : allInsB t = true) (hk : k ∈ keysB SData.key t) :
    unlockPrevK t k = listPred (keysB SData.key t) k := by
  obtain ⟨p, l, d, r, heq, hdk⟩ := searchB_found SData.key t hb hk
  obtain ⟨hents, hdins, hinsl, hinsr⟩ := searchB_allIns hins heq
  obtain ⟨hak, _, hpred⟩ := succ_at_node SData.key k t none none hb heq
  have hplug := searchB_plug SData.key k t
  rw [heq] at hplug
  have hth2 : thB none none (plugB p (.nd l d r)) = true := by rw [hplug]; exact hth
  rw [thB_plug] at hth2
  have hbounds := searchB_bounds_eq SData.key k t (none, none)
  rw [heq] at hbounds
  have hdthreads := hth2.2
  rw [hbounds] at hdthreads
  simp only [thB, Bool.and_eq_true, beq_iff_eq] at hdthreads
  have haprev : d.aprev = loAt SData.key k none t := hdthreads.1.1.1
  rw [unlockPrevK, nodeAt_eq_searchB, heq]
  cases l with
  | lf =>
    rw [optOr_none_right, show (keysB SData.key (BT.lf : STree)).getLast? = none from rfl,
      optOr_none] at hpred
    show threadPrev t d = _
    rw [threadPrev, haprev, ← hpred]
    cases hls : listPred (keysB SData.key t) k with
    | none => rfl
    | some a =>
      have hmem : a ∈ keysB SData.key t := by
        have h3 := List.mem_of_find?_eq_some hls
        exact (List.mem_reverse).mp h3
      show (if insertedAt t a = true then some a else none) = some a
      rw [if_pos (insertedAt_mem hb hins hmem)]
  | nd ll ld lr =>
    have hld : ld.inserted = true := by
      simp only [allInsB, Bool.and_eq_true] at hinsl
      exact hinsl.1.1
    show (if ld.inserted = true then _ else threadPrev t d) = _
    rw [if_pos hld, unlockSubMax_allIns _ hinsl, rightmost_last]
    rw [optOr_none_right] at hpred
    obtain ⟨y, hy⟩ := getLast?_of_node SData.key ll ld lr
    rw [hy] at hpred ⊢
    rw [hpred]
    rfl

theorem climbNext_pBounds : ∀ p : List ZEnt,
    climbNext p = (pBounds ZData.key p (none, none)).2 := by
  intro p
  induction p with
  | nil => rfl
  | cons e p ih =>
    cases e with
    | mk side d sib => cases side <;> simp [climbNext, pBounds, ih]

theorem climbPrev_pBounds : ∀ p : List ZEnt,
    climbPrev p = (pBounds ZData.key p (none, none)).1 := by
  intro p
  induction p with
  | nil => rfl
  | cons e p ih =>
    cases e with
    | mk side d sib => cases side <;> simp [climbPrev, pBounds, ih]

theorem znextK_succ {t : ZTree} {k : Int}
    (hb : bstB ZData.key none none t = true) (hk : k ∈ keysB ZData.key t) :
    znextK t k = listSucc (keysB ZData.key t) k := by
  obtain ⟨p, l, d, r, heq, hdk⟩ := searchB_found ZData.key t hb hk
  obtain ⟨_, hsucc, _⟩ := succ_at_node ZData.key k t none none hb heq
  have hbounds := searchB_bounds_eq ZData.key k t (none, none)
  rw [heq] at hbounds
  rw [znextK, heq]
  cases r with
  | lf =>
    rw [optOr_none_right, show (keysB ZData.key (BT.lf : ZTree)).head? = none from rfl,
      optOr_none] at hsucc
    show climbNext p = _
    rw [climbNext_pBounds, hbounds, hsucc]
  | nd rl rd rr =>
    show (leftmostD (BT.nd rl rd rr)).map ZData.key = _
    rw [leftmost_head]
    rw [optOr_none_right] at hsucc
    obtain ⟨y, hy⟩ := head?_of_node ZData.key rl rd rr
    rw [hy] at hsucc ⊢
    rw [hsucc]
    rfl

theorem zprevK_pred {t : ZTree} {k : Int}
    (hb : bstB ZData.key none none t = true) (hk : k ∈ keysB ZData.key t) :
    zprevK t k = listPred (keysB ZData.key t) k := by
  obtain ⟨p, l, d, r, heq, hdk⟩ := searchB_found ZData.key t hb hk
  obtain ⟨_, _, hpred⟩ := succ_at_node ZData.key k t none none hb heq
  have hbounds := searchB_bounds_eq ZData.key k t (none, none)
  rw [heq] at hbounds
  rw [zprevK, heq]
  cases l with
  | lf =>
    rw [optOr_none_right, show (keysB ZData.key (BT.lf : ZTree)).getLast? = none from rfl,
      optOr_none] at hpred
    show climbPrev p = _
    rw [climbPrev_pBounds, hbounds, hpred]
  | nd ll ld lr =>
    show (rightmostD (BT.nd ll ld lr)).map ZData.key = _
    rw [rightmost_last]
    rw [optOr_none_right] at hpred
    obtain ⟨y, hy⟩ := getLast?_of_node ZData.key ll ld lr
    rw [hy] at hpred ⊢
    rw [hpred]
    rfl

theorem mem_keys_plug {α : Type} (kf : α → Int) : ∀ (p : List (Ent α)) {X : BT α} {y : Int},
    y ∈ keysB kf X → y ∈ keysB kf (plugB p X) := by
  intro p
  induction p with
  | nil => intro X y h; exact h
  | cons e p ih =>
    intro X y h
    cases e with
    | mk side d sib =>
      cases side <;> simp only [plugB] <;> exact ih (by simp [keysB, h])

theorem searchB_found_mem {α : Type} {kf : α → Int} {k : Int} {t : BT α}
    {p : List (Ent α)} {l : BT α} {a : α} {r : BT α} {lo hi : Option Int}
    (hb : bstB kf lo hi t = true) (heq : searchB kf k [] t = (p, .nd l a r)) :
    kf a = k ∧ k ∈ keysB kf t := by
  obtain ⟨hak, _, _⟩ := succ_at_node kf k t none none hb heq
  have hplug := searchB_plug kf k t
  rw [heq] at hplug
  refine ⟨hak, ?_⟩
  rw [← hplug]
  exact mem_keys_plug kf p (by simp [keysB, hak])

theorem thread_neighbor {t : STree}
    (hb : bstB SData.key none none t = true) (hth : thB none none t = true)
    {k : Int} {l : STree} {d : SData} {r : STree}
    (hnode : nodeAt k t = some (l, d, r)) :
    (r = .lf → d.anext = listSucc (keysB SData.key t) k) ∧
    (l = .lf → d.aprev = listPred (keysB SData.key t) k) := by
  rw [nodeAt_eq_searchB] at hnode
  cases hs : searchB SData.key k [] t with
  | mk p f =>
    rw [hs] at hnode
    cases f with
    | lf => cases hnode
    | nd l2 d2 r2 =>
      simp only [Option.some.injEq, Prod.mk.injEq] at hnode
      obtain ⟨rfl, rfl, rfl⟩ := hnode
      obtain ⟨hak, hsucc, hpred⟩ := succ_at_node SData.key k t none none hb hs
      have hplug := searchB_plug SData.key k t
      rw [hs] at hplug
      have hth2 : thB none none (plugB p (.nd l2 d2 r2)) = true := by rw [hplug]; exact hth
      rw [thB_plug] at hth2
      have hbounds := searchB_bounds_eq SData.key k t (none, none)
      rw [hs] at hbounds
      have hdthreads := hth2.2
      rw [hbounds] at hdthreads
      simp only [thB, Bool.and_eq_true, beq_iff_eq] at hdthreads
      constructor
      · intro hr
        subst hr
        rw [optOr_none_right, show (keysB SData.key (BT.lf : STree)).head? = none from rfl,
          optOr_none] at hsucc
        rw [hdthreads.1.1.2, hsucc]
      · intro hl
        subst hl
        rw [optOr_none_right, show (keysB SData.key (BT.lf : STree)).getLast? = none from rfl,
          optOr_none] at hpred
        rw [hdthreads.1.1.1, hpred]

theorem stFull_parts {st : SplaySt} (h : stFullB st = true) :
    bstB SData.key none none st.tree = true ∧ allInsB st.tree = true ∧
    st.size = (keysB SData.key st.tree).length ∧ thB none none st.tree = true := by
  simp only [stFullB, stOkB, sbstB, Bool.and_eq_true, beq_iff_eq] at h
  exact ⟨h.1.1.1, h.1.1.2, h.1.2, h.2⟩

theorem buildS_go_stFull : ∀ (ks : List Int) (st : SplaySt), stFullB st = true →
    stFullB (ks.foldl insertS st) = true := by
  intro ks
  induction ks with
  | nil => intro st h; exact h
  | cons k ks ih =>
    intro st h
    exact ih (insertS st k) (insertS_stFull h)

theorem buildS_stFull (ks : List Int) : stFullB (buildS ks) = true :=
  buildS_go_stFull ks emptyS (by decide)

/-- Counterexample to C2 as stated: node 2 of the insert-only state
buildS [1,2] has a non-empty left subtree and aprev = none, while its true
in-order predecessor is 1; and after Delete 2 on buildS [1,2,3] the
remaining node 1 still carries the stale thread anext = some 2 although 2
is no longer stored and its true successor is 3. -/
theorem claimC2_cex :
    stFullB (buildS [1, 2]) = true ∧
    nodeAt 2 (buildS [1, 2]).tree =
      some (.nd .lf ⟨1, true, none, some 2⟩ .lf, ⟨2, true, none, none⟩, .lf) ∧
    listPred (keysB SData.key (buildS [1, 2]).tree) 2 = some 1 ∧
    (deleteS (buildS [1, 2, 3]) 2).1 = true ∧
    nodeAt 1 (deleteS (buildS [1, 2, 3]) 2).2.tree =
      some (.lf, ⟨1, true, none, some 2⟩, .lf) ∧
    (2 ∉ keysB SData.key (deleteS (buildS [1, 2, 3]) 2).2.tree) ∧
    listSucc (keysB SData.key (deleteS (buildS [1, 2, 3]) 2).2.tree) 1 = some 3 := by
  decide

/-- C2 (amended): the ancestor threads are the nearest-ancestor slot
bounds, so they equal the true in-order neighbours exactly on the side
whose subtree is empty.  In every state reachable by Inserts alone
(stFullB, which insertS preserves and Delete does not), and likewise in
the window tree between a new node's attachment and its post-insert
splay, every node with an empty right (resp. left) subtree has anext
(resp. aprev) equal to its in-order successor (resp. predecessor) as
computed from the full traversal, null at the maximum (resp. minimum). -/
theorem claimC2 :
    (∀ (st : SplaySt), stFullB st = true →
      ∀ (k : Int) (l : STree) (d : SData) (r : STree),
        nodeAt k st.tree = some (l, d, r) →
        (r = .lf → d.anext = listSucc (keysB SData.key st.tree) k) ∧
        (l = .lf → d.aprev = listPred (keysB SData.key st.tree) k)) ∧
    (∀ (st : SplaySt) (k : Int) (w : STree), stFullB st = true →
      insertWindow st.tree k = some w →
      ∀ (k2 : Int) (l : STree) (d : SData) (r : STree),
        nodeAt k2 w = some (l, d, r) →
        (r = .lf → d.anext = listSucc (keysB SData.key w) k2) ∧
        (l = .lf → d.aprev = listPred (keysB SData.key w) k2)) := by
  constructor
  · intro st hst k l d r hnode
    obtain ⟨hb, _, _, hth⟩ := stFull_parts hst
    exact thread_neighbor hb hth hnode
  · intro st k w hst hw k2 l d r hnode
    obtain ⟨hb, _, _, hth⟩ := stFull_parts hst
    simp only [insertWindow] at hw
    cases hins : insGo k none none [] st.tree with
    | none => rw [hins] at hw; cases hw
    | some z =>
      cases z with
      | mk d0 p =>
        rw [hins] at hw
        simp only [Option.some.injEq] at hw
        subst hw
        have hk : k ∉ keysB SData.key st.tree := insGo_some_fresh hb hins
        obtain ⟨d1, p1, pre, post, heq1, hdk, _, hkeys, hplug, hpre, hpost⟩ :=
          insGo_spec k st.tree none none hb hk
        rw [hins] at heq1
        simp only [Option.some.injEq, Prod.mk.injEq] at heq1
        obtain ⟨hd01, hp01⟩ := heq1
        subst hd01
        subst hp01
        have hkw : keysB SData.key (plugB p (.nd .lf d0 .lf)) = pre ++ k :: post := by
          rw [hplug (.nd .lf d0 .lf)]
          simp [keysB, hdk]
        have hpw : (pre ++ post).Pairwise (fun a b => a < b) := by
          have h0 := bst_pairwise SData.key st.tree none none hb
          rw [hkeys] at h0
          exact h0
        have hpm := pairwise_mid hpw hpre hpost
        have hbW : bstB SData.key none none (plugB p (.nd .lf d0 .lf)) = true := by
          refine pairwise_bst SData.key _ none none ?_ ?_
          · rw [hkw]; exact hpm
          · intro x _; exact ⟨loP_none x, hiP_none x⟩
        have hthW : thB none none (plugB p (.nd .lf d0 .lf)) = true :=
          insGo_window_th k st.tree hb hth hins
        exact thread_neighbor hbW hthW hnode

/-- Witness for C2: node 1 of buildS [2,1,3] has empty children and its
threads equal its in-order neighbours; in the insert window for key 2 over
buildS [1,3] the attached node 2 likewise points at its neighbours. -/
theorem claimC2_witness :
    (⟨1, true, none, some 2⟩ : SData).anext =
      listSucc (keysB SData.key (buildS [2, 1, 3]).tree) 1 ∧
    (⟨2, false, some 1, some 3⟩ : SData).aprev =
      listPred (keysB SData.key
        (BT.nd (BT.nd BT.lf ⟨1, true, none, some 3⟩
          (BT.nd BT.lf ⟨2, false, some 1, some 3⟩ BT.lf))
          ⟨3, true, none, none⟩ BT.lf)) 2 :=
  ⟨(claimC2.1 (buildS [2, 1, 3]) (by decide) 1 .lf ⟨1, true, none, some 2⟩ .lf
      (by decide)).1 rfl,
   (claimC2.2 (buildS [1, 3]) 2
      (BT.nd (BT.nd BT.lf ⟨1, true, none, some 3⟩
        (BT.nd BT.lf ⟨2, false, some 1, some 3⟩ BT.lf))
        ⟨3, true, none, none⟩ BT.lf)
      (by decide) (by decide) 2 .lf ⟨2, false, some 1, some 3⟩ .lf
      (by decide)).2 rfl⟩

/-! ## Claim C4: Delete semantics -/

theorem setRootAnext_keys (t : STree) (v : Option Int) :
    keysB SData.key (setRootAnext t v) = keysB SData.key t := by
  cases t <;> simp [setRootAnext, keysB]

theorem setRootAprev_keys (t : STree) (v : Option Int) :
    keysB SData.key (setRootAprev t v) = keysB SData.key t := by
  cases t <;> simp [setRootAprev, keysB]

theorem setRootAnext_allIns (t : STree) (v : Option Int) :
    allInsB (setRootAnext t v) = allInsB t := by
  cases t <;> simp [setRootAnext, allInsB]

theorem setRootAprev_allIns (t : STree) (v : Option Int) :
    allInsB (setRootAprev t v) = allInsB t := by
  cases t <;> simp [setRootAprev, allInsB]

theorem unlockFind_isSome (k : Int) : ∀ (t : STree) {lo hi : Option Int},
    bstB SData.key lo hi t = true → allInsB t = true →
    ((unlockFind k t).isSome = true ↔ k ∈ keysB SData.key t) := by
  intro t
  induction t with
  | lf =>
    intro lo hi _ _
    simp [unlockFind, pUnlockFind, keysB]
  | nd l d r ihl ihr =>
    intro lo hi hb hins
    simp only [bstB, Bool.and_eq_true] at hb
    obtain ⟨⟨_, hbl⟩, hbr⟩ := hb
    simp only [allInsB, Bool.and_eq_true] at hins
    obtain ⟨⟨hdi, hil⟩, hir⟩ := hins
    show (pUnlockFind cmp3 k (.nd l d r)).isSome = true ↔ _
    rw [pUnlockFind, if_neg (by simp [hdi])]
    by_cases hdk : d.key = k
    · rw [if_pos hdk]
      simp [keysB, hdk]
    · rw [if_neg hdk]
      by_cases hlt : cmp3 d.key k < 0
      · rw [if_pos hlt]
        have hrec := ihr hbr hir
        rw [unlockFind] at hrec
        rw [hrec]
        have hdlt : d.key < k := cmp3_neg.mp hlt
        constructor
        · intro hkr
          simp only [keysB, List.mem_append, List.mem_cons]
          exact Or.inr (Or.inr hkr)
        · intro hkt
          simp only [keysB, List.mem_append, List.mem_cons] at hkt
          rcases hkt with hkl | hkeq | hkr
          · have h2 := (bst_bounds SData.key l lo (some d.key) hbl k hkl).2 d.key rfl
            omega
          · exact absurd hkeq.symm hdk
          · exact hkr
      · rw [if_neg hlt]
        have hrec := ihl hbl hil
        rw [unlockFind] at hrec
        rw [hrec]
        have hklt : k < d.key := by
          have h0 : ¬ d.key = k := hdk
          have h1 : ¬ d.key < k := fun h2 => hlt (cmp3_neg.mpr h2)
          omega
        constructor
        · intro hkl
          simp only [keysB, List.mem_append, List.mem_cons]
          exact Or.inl hkl
        · intro hkt
          simp only [keysB, List.mem_append, List.mem_cons] at hkt
          rcases hkt with hkl | hkeq | hkr
          · exact hkl
          · exact absurd hkeq.symm hdk
          · have h2 := (bst_bounds SData.key r (some d.key) hi hbr k hkr).1 d.key rfl
            omega

theorem spliceGo_spec : ∀ (t : STree), allInsB t = true → t ≠ .lf →
    ∃ c t2, spliceGo t = some (c, t2) ∧
      keysB SData.key t = c.key :: keysB SData.key t2 ∧
      c.inserted = true ∧ allInsB t2 = true := by
  intro t
  induction t with
  | lf => intro _ h; exact absurd rfl h
  | nd l d r ihl _ =>
    intro hins _
    simp only [allInsB, Bool.and_eq_true] at hins
    obtain ⟨⟨hdi, hil⟩, hir⟩ := hins
    cases l with
    | lf =>
      exact ⟨d, r, rfl, by simp [keysB], hdi, hir⟩
    | nd ll ld lr =>
      have hldi : ld.inserted = true := by
        have h2 : (ld.inserted && allInsB ll && allInsB lr) = true := by
          simp only [allInsB] at hil
          have h3 : (ld.inserted && allInsB ll && allInsB lr) = true := hil
          exact h3
        simp only [Bool.and_eq_true] at h2
        exact h2.1.1
      obtain ⟨c, t2, hsp, hkeys, hci, hins2⟩ := ihl hil (by intro h; cases h)
      refine ⟨c, .nd t2 d r, ?_, ?_, hci, ?_⟩
      · show (if ld.inserted = true then
            match spliceGo (.nd ll ld lr) with
            | some (c, l2) => some (c, BT.nd l2 d r)
            | none => none
          else some (d, r)) = some (c, BT.nd t2 d r)
        rw [if_pos hldi, hsp]
      · show keysB SData.key (.nd (.nd ll ld lr) d r) = _
        simp only [keysB] at hkeys ⊢
        rw [hkeys]
        simp [keysB]
      · simp only [allInsB, Bool.and_eq_true]
        exact ⟨⟨hdi, hins2⟩, hir⟩

theorem pairwise_drop_mid {pre post : List Int} {k : Int}
    (h : (pre ++ k :: post).Pairwise (fun a b => a < b)) :
    (pre ++ post).Pairwise (fun a b => a < b) := by
  have hs : (pre ++ post).Sublist (pre ++ k :: post) :=
    (List.sublist_cons_self k post).append_left pre
  exact List.Pairwise.sublist hs h

theorem not_mem_of_pairwise_mid {pre post : List Int} {k : Int}
    (h : (pre ++ k :: post).Pairwise (fun a b => a < b)) :
    k ∉ pre ++ post := by
  rw [List.pairwise_append] at h
  intro hk
  rcases List.mem_append.mp hk with hkp | hkq
  · have h2 := h.2.2 k hkp k (List.mem_cons_self k post)
    omega
  · have h2 := (List.pairwise_cons.mp h.2.1).1 k hkq
    omega

theorem deleteS_present {st : SplaySt} {k : Int}
    (hok : stOkB st = true) (hk : k ∈ skeys st.tree) :
    ∃ pre post,
      skeys st.tree = pre ++ k :: post ∧
      (deleteS st k).1 = true ∧
      skeys (deleteS st k).2.tree = pre ++ post ∧
      allInsB (deleteS st k).2.tree = true ∧
      bstB SData.key none none (deleteS st k).2.tree = true ∧
      (deleteS st k).2.size = st.size - 1 := by
  have hok2 := hok
  simp only [stOkB, sbstB, Bool.and_eq_true, beq_iff_eq] at hok2
  obtain ⟨⟨hb, hins⟩, _⟩ := hok2
  have hfs : (unlockFind k st.tree).isSome = true :=
    (unlockFind_isSome k st.tree hb hins).mpr hk
  obtain ⟨val, hf⟩ := Option.isSome_iff_exists.mp hfs
  obtain ⟨p, l, d, r, heq, hdk⟩ := searchB_found SData.key st.tree hb hk
  have hplug := searchB_plug SData.key k st.tree
  rw [heq] at hplug
  obtain ⟨L, R, ap, an, hroot⟩ := splayLoop_root p l d r
  have hsp : splayS k st.tree = .nd L ⟨d.key, d.inserted, ap, an⟩ R := by
    simp only [splayS, heq]
    exact hroot
  have hkeys : keysB SData.key st.tree = keysB SData.key L ++ d.key :: keysB SData.key R := by
    have h1 := splayLoop_keys p (.nd l d r)
    rw [hroot, hplug] at h1
    rw [← h1]
    simp [keysB]
  have hinsLR : allInsB (.nd L (⟨d.key, d.inserted, ap, an⟩ : SData) R) = true := by
    rw [← hroot, splayLoop_allIns, hplug]
    exact hins
  simp only [allInsB, Bool.and_eq_true] at hinsLR
  obtain ⟨⟨_, hiL⟩, hiR⟩ := hinsLR
  have hpw : (keysB SData.key L ++ k :: keysB SData.key R).Pairwise (fun a b => a < b) := by
    have h0 := bst_pairwise SData.key st.tree none none hb
    rw [hkeys, hdk] at h0
    exact h0
  have hpw2 := pairwise_drop_mid hpw
  have hkeys2 : skeys st.tree = keysB SData.key L ++ k :: keysB SData.key R := by
    rw [skeys_def, hkeys, hdk]
  refine ⟨keysB SData.key L, keysB SData.key R, hkeys2, ?_⟩
  cases L with
  | lf =>
    have hdel : deleteS st k =
        (true, { tree := setRootAprev R none, size := st.size - 1 }) := by
      simp [deleteS, findModel, hf, hsp]
    rw [hdel]
    refine ⟨rfl, ?_, ?_, ?_, rfl⟩
    · rw [skeys_def]
      rw [setRootAprev_keys]
      simp [keysB]
    · rw [setRootAprev_allIns]
      exact hiR
    · refine pairwise_bst SData.key _ none none ?_ ?_
      · rw [setRootAprev_keys]
        simp only [keysB, List.nil_append] at hpw2
        exact hpw2
      · intro x _
        exact ⟨loP_none x, hiP_none x⟩
  | nd La Ld Lr =>
    cases R with
    | lf =>
      have hdel : deleteS st k =
          (true, { tree := setRootAnext (.nd La Ld Lr) none, size := st.size - 1 }) := by
        simp [deleteS, findModel, hf, hsp]
      rw [hdel]
      refine ⟨rfl, ?_, ?_, ?_, rfl⟩
      · rw [skeys_def, setRootAnext_keys]
        simp [keysB]
      · rw [setRootAnext_allIns]
        exact hiL
      · refine pairwise_bst SData.key _ none none ?_ ?_
        · rw [setRootAnext_keys]
          simp only [keysB, List.append_nil] at hpw2
          exact hpw2
        · intro x _
          exact ⟨loP_none x, hiP_none x⟩
    | nd rl rd rr =>
      cases rl with
      | lf =>
        have hdel : deleteS st k =
            (true, { tree := .nd (.nd La Ld Lr) { rd with aprev := none } rr,
                     size := st.size - 1 }) := by
          simp [deleteS, findModel, hf, hsp]
        rw [hdel]
        have hkt2 : keysB SData.key
            (BT.nd (BT.nd La Ld Lr) { rd with aprev := none } rr) =
            keysB SData.key (BT.nd La Ld Lr) ++ keysB SData.key (BT.nd BT.lf rd rr) := by
          simp [keysB]
        refine ⟨rfl, ?_, ?_, ?_, rfl⟩
        · rw [skeys_def, hkt2]
        · have h2 : (rd.inserted && allInsB BT.lf && allInsB rr) = true := hiR
          simp only [Bool.and_eq_true] at h2
          show (({ rd with aprev := none } : SData).inserted &&
            allInsB (.nd La Ld Lr) && allInsB rr) = true
          simp only [Bool.and_eq_true]
          exact ⟨⟨h2.1.1, hiL⟩, h2.2⟩
        · refine pairwise_bst SData.key _ none none ?_ ?_
          · rw [hkt2]
            exact hpw2
          · intro x _
            exact ⟨loP_none x, hiP_none x⟩
      | nd rla rld rlr =>
        have hrldi : rld.inserted = true := by
          have h2 : (rd.inserted && allInsB (.nd rla rld rlr) && allInsB rr) = true := hiR
          simp only [Bool.and_eq_true] at h2
          have h3 : (rld.inserted && allInsB rla && allInsB rlr) = true := h2.1.2
          simp only [Bool.and_eq_true] at h3
          exact h3.1.1
        obtain ⟨c, t2r, hspl, hkR, hci, hins2⟩ :=
          spliceGo_spec (.nd (.nd rla rld rlr) rd rr) hiR (by intro h; cases h)
        have hdel : deleteS st k =
            (true, { tree := .nd (setRootAnext (.nd La Ld Lr) (some c.key)) c
                       (setRootAprev t2r (some c.key)),
                     size := st.size - 1 }) := by
          simp [deleteS, findModel, hf, hsp, hrldi, hspl]
        rw [hdel]
        have hkt2 : keysB SData.key
            (BT.nd (setRootAnext (BT.nd La Ld Lr) (some c.key)) c
              (setRootAprev t2r (some c.key))) =
            keysB SData.key (BT.nd La Ld Lr) ++
              keysB SData.key (BT.nd (BT.nd rla rld rlr) rd rr) := by
          show keysB SData.key (setRootAnext (BT.nd La Ld Lr) (some c.key)) ++
              c.key :: keysB SData.key (setRootAprev t2r (some c.key)) =
              keysB SData.key (BT.nd La Ld Lr) ++
                keysB SData.key (BT.nd (BT.nd rla rld rlr) rd rr)
          rw [setRootAnext_keys, setRootAprev_keys, hkR]
        refine ⟨rfl, ?_, ?_, ?_, rfl⟩
        · rw [skeys_def, hkt2]
        · show (c.inserted && allInsB (setRootAnext (.nd La Ld Lr) (some c.key)) &&
            allInsB (setRootAprev t2r (some c.key))) = true
          rw [setRootAnext_allIns, setRootAprev_allIns]
          simp only [Bool.and_eq_true]
          exact ⟨⟨hci, hiL⟩, hins2⟩
        · refine pairwise_bst SData.key _ none none ?_ ?_
          · rw [hkt2]
            exact hpw2
          · intro x _
            exact ⟨loP_none x, hiP_none x⟩

theorem deleteS_absent {st : SplaySt} {k : Int}
    (hok : stOkB st = true) (hk : k ∉ skeys st.tree) :
    deleteS st k = (false, st) := by
  have hok2 := hok
  simp only [stOkB, sbstB, Bool.and_eq_true, beq_iff_eq] at hok2
  obtain ⟨⟨hb, hins⟩, _⟩ := hok2
  have hfs : unlockFind k st.tree = none := by
    cases hf : unlockFind k st.tree with
    | none => rfl
    | some v =>
      have h2 : (unlockFind k st.tree).isSome = true := by rw [hf]; rfl
      exact absurd ((unlockFind_isSome k st.tree hb hins).mp h2) hk
  simp [deleteS, findModel, hfs]

/-- C4: on a well-formed state (BST order, all nodes inserted, accurate
size counter), Delete of a stored key returns true, decrements the size
counter by exactly one and Contains reports the key gone; Delete of an
absent key returns false and leaves the state (tree and size) unchanged.
Delete's call to the missing Find member is modelled as UnlockFind. -/
theorem claimC4 : ∀ (st : SplaySt) (k : Int), stOkB st = true →
    ((k ∈ skeys st.tree →
      (deleteS st k).1 = true ∧
      st.size = (deleteS st k).2.size + 1 ∧
      containsS (deleteS st k).2.tree k = false) ∧
     (k ∉ skeys st.tree →
      (deleteS st k).1 = false ∧ (deleteS st k).2 = st)) := by
  intro st k hok
  have hok2 := hok
  simp only [stOkB, sbstB, Bool.and_eq_true, beq_iff_eq] at hok2
  obtain ⟨⟨hb, _⟩, hsz⟩ := hok2
  constructor
  · intro hk
    obtain ⟨pre, post, hkeys, hret, hkeys2, hins2, hb2, hsize⟩ := deleteS_present hok hk
    have hpw0 := bst_pairwise SData.key st.tree none none hb
    rw [← skeys_def, hkeys] at hpw0
    have hnot := not_mem_of_pairwise_mid hpw0
    refine ⟨hret, ?_, ?_⟩
    · rw [hsize, hsz, hkeys]
      simp only [List.length_append, List.length_cons]
      omega
    · show (unlockFind k (deleteS st k).2.tree).isSome = false
      cases h2 : (unlockFind k (deleteS st k).2.tree).isSome with
      | false => rfl
      | true =>
        have hmem := (unlockFind_isSome k (deleteS st k).2.tree hb2 hins2).mp h2
        rw [← skeys_def, hkeys2] at hmem
        exact absurd hmem hnot
  · intro hk
    have h := deleteS_absent hok hk
    rw [h]
    exact ⟨rfl, rfl⟩

/-- Witness for C4: deleting the stored key 1 from the two-node state and
the absent key 5 from the same state. -/
theorem claimC4_witness :
    ((deleteS (buildS [1, 2]) 1).1 = true ∧
      (buildS [1, 2]).size = (deleteS (buildS [1, 2]) 1).2.size + 1 ∧
      containsS (deleteS (buildS [1, 2]) 1).2.tree 1 = false) ∧
    ((deleteS (buildS [1, 2]) 5).1 = false ∧
      (deleteS (buildS [1, 2]) 5).2 = buildS [1, 2]) :=
  ⟨(claimC4 (buildS [1, 2]) 1 (by decide)).1 (by decide),
   (claimC4 (buildS [1, 2]) 5 (by decide)).2 (by decide)⟩

/-! ## Claim C6: Seek, SeekToFirst, SeekToLast -/

theorem find?_congr_mem : ∀ {xs : List Int} {p q : Int → Bool},
    (∀ x ∈ xs, p x = q x) → xs.find? p = xs.find? q := by
  intro xs
  induction xs with
  | nil => intro p q _; rfl
  | cons x xs ih =>
    intro p q h
    have hx := h x (List.mem_cons_self x xs)
    cases hq : q x with
    | true =>
      rw [List.find?_cons_of_pos _ (by rw [hx, hq]), List.find?_cons_of_pos _ hq]
    | false =>
      rw [List.find?_cons_of_neg _ (by simp [hx, hq]), List.find?_cons_of_neg _ (by simp [hq])]
      exact ih (fun y hy => h y (List.mem_cons_of_mem x hy))

theorem listGE_eq_of_lower : ∀ {xs : List Int} {k a : Int},
    xs.Pairwise (fun x y => x < y) → a ∈ xs → k ≤ a →
    (∀ x ∈ xs, x < a → x < k) → listGE xs k = some a := by
  intro xs
  induction xs with
  | nil => intro k a _ ha _ _; cases ha
  | cons x xs ih =>
    intro k a hs ha hka hlow
    rw [List.pairwise_cons] at hs
    by_cases hkx : k ≤ x
    · have hxa : x = a := by
        rcases List.mem_cons.mp ha with h | ha2
        · exact h.symm
        · exfalso
          have h1 := hlow x (List.mem_cons_self x xs) (hs.1 a ha2)
          omega
      show (x :: xs).find? (fun y => decide (k ≤ y)) = some a
      rw [List.find?_cons_of_pos _ (by simp [hkx]), hxa]
    · have ha2 : a ∈ xs := by
        rcases List.mem_cons.mp ha with h | h2
        · exact absurd (h ▸ hka) hkx
        · exact h2
      show (x :: xs).find? (fun y => decide (k ≤ y)) = some a
      rw [List.find?_cons_of_neg _ (by simp [hkx])]
      exact ih hs.2 ha2 hka (fun y hy hya => hlow y (List.mem_cons_of_mem x hy) hya)

theorem listGE_self {xs : List Int} {k : Int} (hs : xs.Pairwise (fun a b => a < b))
    (hk : k ∈ xs) : listGE xs k = some k :=
  listGE_eq_of_lower hs hk (le_refl k) (fun _ _ h => h)

theorem listGE_eq_succ {xs : List Int} {b k : Int} (hbk : b < k)
    (hgap : ∀ x ∈ xs, b < x → k ≤ x) : listGE xs k = listSucc xs b := by
  apply find?_congr_mem
  intro x hx
  exact decide_eq_decide.mpr ⟨fun h2 => by omega, fun h2 => hgap x hx h2⟩

theorem mem_node_right {kf : α → Int} {l : BT α} {a : α} {r : BT α}
    {lo hi : Option Int} {k : Int} (hb : bstB kf lo hi (.nd l a r) = true)
    (hlt : kf a < k) (hk : k ∈ keysB kf (.nd l a r)) : k ∈ keysB kf r := by
  simp only [bstB, Bool.and_eq_true] at hb
  obtain ⟨⟨_, hbl⟩, _⟩ := hb
  simp only [keysB, List.mem_append, List.mem_cons] at hk
  rcases hk with hkl | hkeq | hkr
  · have h2 := (bst_bounds kf l lo (some (kf a)) hbl k hkl).2 (kf a) rfl
    omega
  · omega
  · exact hkr

theorem mem_node_left {kf : α → Int} {l : BT α} {a : α} {r : BT α}
    {lo hi : Option Int} {k : Int} (hb : bstB kf lo hi (.nd l a r) = true)
    (hlt : k < kf a) (hk : k ∈ keysB kf (.nd l a r)) : k ∈ keysB kf l := by
  simp only [bstB, Bool.and_eq_true] at hb
  obtain ⟨⟨_, _⟩, hbr⟩ := hb
  simp only [keysB, List.mem_append, List.mem_cons] at hk
  rcases hk with hkl | hkeq | hkr
  · exact hkl
  · omega
  · have h2 := (bst_bounds kf r (some (kf a)) hi hbr k hkr).1 (kf a) rfl
    omega

theorem firstS_head : ∀ {t : STree}, allInsB t = true →
    firstS t = (keysB SData.key t).head? := by
  intro t hins
  cases t with
  | lf => rfl
  | nd l d r =>
    have hins2 : (d.inserted && allInsB l && allInsB r) = true := hins
    simp only [Bool.and_eq_true] at hins2
    cases l with
    | lf =>
      show some d.key = _
      simp [keysB]
    | nd la ld lr =>
      show (unlockSubMin (.nd la ld lr)).map SData.key = _
      rw [unlockSubMin_allIns _ hins2.1.2, leftmost_head]
      show _ = (keysB SData.key (.nd la ld lr) ++ d.key :: keysB SData.key r).head?
      rw [List.head?_append]
      cases hh : (keysB SData.key (.nd la ld lr)).head? with
      | none =>
        exfalso
        apply keysB_ne_nil SData.key la ld lr
        cases hk2 : keysB SData.key (.nd la ld lr) with
        | nil => rfl
        | cons a as => rw [hk2] at hh; cases hh
      | some a => rfl

theorem getLast?_mid (xs : List Int) (a : Int) (ys : List Int) (hy : ys ≠ []) :
    (xs ++ a :: ys).getLast? = ys.getLast? := by
  rw [List.getLast?_append, List.getLast?_cons]
  cases hl : ys.getLast? with
  | none =>
    exfalso
    apply hy
    cases ys with
    | nil => rfl
    | cons b bs => rw [List.getLast?_eq_getLast (b :: bs) (by simp)] at hl; cases hl
  | some b => rfl

theorem lastS_getLast : ∀ {t : STree}, allInsB t = true →
    lastS t = (keysB SData.key t).getLast? := by
  intro t hins
  cases t with
  | lf => rfl
  | nd l d r =>
    have hins2 : (d.inserted && allInsB l && allInsB r) = true := hins
    simp only [Bool.and_eq_true] at hins2
    cases r with
    | lf =>
      show some d.key = (keysB SData.key l ++ d.key :: keysB SData.key BT.lf).getLast?
      show some d.key = (keysB SData.key l ++ [d.key]).getLast?
      rw [List.getLast?_append]
      rfl
    | nd ra rd rr =>
      show (unlockSubMax (.nd ra rd rr)).map SData.key = _
      rw [unlockSubMax_allIns _ hins2.2, rightmost_last]
      show _ = (keysB SData.key l ++ d.key :: keysB SData.key (.nd ra rd rr)).getLast?
      rw [getLast?_mid]
      intro h
      exact keysB_ne_nil SData.key ra rd rr h

theorem sfgeGo_found (k : Int) : ∀ (t : STree) {lo hi : Option Int} (pv : Option SData),
    bstB SData.key lo hi t = true → allInsB t = true → k ∈ keysB SData.key t →
    ∃ d, sfgeGo k pv t = (some d, some d) ∧ d.key = k ∧ d.inserted = true := by
  intro t
  induction t with
  | lf => intro lo hi pv _ _ hk; simp [keysB] at hk
  | nd l d r ihl ihr =>
    intro lo hi pv hb hins hk
    have hins2 : (d.inserted && allInsB l && allInsB r) = true := hins
    simp only [Bool.and_eq_true] at hins2
    obtain ⟨⟨hdi, hil⟩, hir⟩ := hins2
    show ∃ d2, (if d.inserted = false then ((some d : Option SData), pv)
        else if cmp3 d.key k = 0 then (some d, some d)
        else if cmp3 d.key k < 0 then sfgeGo k (some d) r
        else sfgeGo k (some d) l) = (some d2, some d2) ∧ d2.key = k ∧ d2.inserted = true
    rw [if_neg (by simp [hdi])]
    by_cases heq : cmp3 d.key k = 0
    · rw [if_pos heq]
      exact ⟨d, rfl, cmp3_eq_zero.mp heq, hdi⟩
    · rw [if_neg heq]
      by_cases hlt : cmp3 d.key k < 0
      · rw [if_pos hlt]
        have hb2 : bstB SData.key lo hi (.nd l d r) = true := hb
        simp only [bstB, Bool.and_eq_true] at hb2
        exact ihr (some d) hb2.2 hir (mem_node_right hb (cmp3_neg.mp hlt) hk)
      · rw [if_neg hlt]
        have hb2 : bstB SData.key lo hi (.nd l d r) = true := hb
        simp only [bstB, Bool.and_eq_true] at hb2
        have hklt : k < d.key := by
          have h1 : ¬ d.key = k := fun h => heq (cmp3_eq_zero.mpr h)
          have h2 : ¬ d.key < k := fun h => hlt (cmp3_neg.mpr h)
          omega
        exact ihl (some d) hb2.1.2 hil (mem_node_left hb hklt hk)

theorem sfgeGo_absent (k : Int) : ∀ (t : STree) {lo hi : Option Int} (pv : Option SData),
    bstB SData.key lo hi t = true → allInsB t = true → k ∉ keysB SData.key t →
    (keysB SData.key t = [] ∧ sfgeGo k pv t = (none, pv)) ∨
    (∃ pd, sfgeGo k pv t = (none, some pd) ∧ pd.key ∈ keysB SData.key t ∧
      ((k < pd.key ∧ ∀ x ∈ keysB SData.key t, x < pd.key → x < k) ∨
       (pd.key < k ∧ ∀ x ∈ keysB SData.key t, pd.key < x → k < x))) := by
  intro t
  induction t with
  | lf => intro lo hi pv _ _ _; exact Or.inl ⟨rfl, rfl⟩
  | nd l d r ihl ihr =>
    intro lo hi pv hb hins hk
    have hb2 := hb
    simp only [bstB, Bool.and_eq_true] at hb2
    obtain ⟨⟨_, hbl⟩, hbr⟩ := hb2
    have hins2 : (d.inserted && allInsB l && allInsB r) = true := hins
    simp only [Bool.and_eq_true] at hins2
    obtain ⟨⟨hdi, hil⟩, hir⟩ := hins2
    have hkd : ¬ d.key = k := fun h => hk (by simp [keysB, h])
    have hknl : k ∉ keysB SData.key l := fun h => hk (by
      simp only [keysB, List.mem_append, List.mem_cons]
      exact Or.inl h)
    have hknr : k ∉ keysB SData.key r := fun h => hk (by
      simp only [keysB, List.mem_append, List.mem_cons]
      exact Or.inr (Or.inr h))
    have hlb := fun x hx => (bst_bounds SData.key l lo (some d.key) hbl x hx).2 d.key rfl
    have hrb := fun x hx => (bst_bounds SData.key r (some d.key) hi hbr x hx).1 d.key rfl
    show (keysB SData.key (.nd l d r) = [] ∧
        (if d.inserted = false then ((some d : Option SData), pv)
          else if cmp3 d.key k = 0 then (some d, some d)
          else if cmp3 d.key k < 0 then sfgeGo k (some d) r
          else sfgeGo k (some d) l) = (none, pv)) ∨
      (∃ pd, (if d.inserted = false then ((some d : Option SData), pv)
          else if cmp3 d.key k = 0 then (some d, some d)
          else if cmp3 d.key k < 0 then sfgeGo k (some d) r
          else sfgeGo k (some d) l) = (none, some pd) ∧
        pd.key ∈ keysB SData.key (.nd l d r) ∧
        ((k < pd.key ∧ ∀ x ∈ keysB SData.key (.nd l d r), x < pd.key → x < k) ∨
         (pd.key < k ∧ ∀ x ∈ keysB SData.key (.nd l d r), pd.key < x → k < x)))
    rw [if_neg (by simp [hdi]), if_neg (fun h => hkd (cmp3_eq_zero.mp h))]
    by_cases hlt : cmp3 d.key k < 0
    · rw [if_pos hlt]
      have hdk : d.key < k := cmp3_neg.mp hlt
      rcases ihr (some d) hbr hir hknr with ⟨hnil, hstep2⟩ | ⟨pd, hstep2, hmem, hcond⟩
      · refine Or.inr ⟨d, hstep2, by simp [keysB], Or.inr ⟨hdk, ?_⟩⟩
        intro x hx hdx
        simp only [keysB, List.mem_append, List.mem_cons] at hx
        rcases hx with hxl | rfl | hxr
        · have := hlb x hxl; omega
        · omega
        · rw [hnil] at hxr; cases hxr
      · refine Or.inr ⟨pd, hstep2, ?_, ?_⟩
        · simp only [keysB, List.mem_append, List.mem_cons]
          exact Or.inr (Or.inr hmem)
        · have hpdgt : d.key < pd.key := hrb pd.key hmem
          rcases hcond with ⟨hkp, hcnd⟩ | ⟨hpk, hcnd⟩
          · refine Or.inl ⟨hkp, ?_⟩
            intro x hx hxp
            simp only [keysB, List.mem_append, List.mem_cons] at hx
            rcases hx with hxl | rfl | hxr
            · have := hlb x hxl; omega
            · omega
            · exact hcnd x hxr hxp
          · refine Or.inr ⟨hpk, ?_⟩
            intro x hx hpx
            simp only [keysB, List.mem_append, List.mem_cons] at hx
            rcases hx with hxl | rfl | hxr
            · have := hlb x hxl; omega
            · omega
            · exact hcnd x hxr hpx
    · rw [if_neg hlt]
      have hdk : k < d.key := by
        have h2 : ¬ d.key < k := fun h => hlt (cmp3_neg.mpr h)
        omega
      rcases ihl (some d) hbl hil hknl with ⟨hnil, hstep2⟩ | ⟨pd, hstep2, hmem, hcond⟩
      · refine Or.inr ⟨d, hstep2, by simp [keysB], Or.inl ⟨hdk, ?_⟩⟩
        intro x hx hxd
        simp only [keysB, List.mem_append, List.mem_cons] at hx
        rcases hx with hxl | rfl | hxr
        · rw [hnil] at hxl; cases hxl
        · omega
        · have := hrb x hxr; omega
      · refine Or.inr ⟨pd, hstep2, ?_, ?_⟩
        · simp only [keysB, List.mem_append, List.mem_cons]
          exact Or.inl hmem
        · have hpdlt : pd.key < d.key := hlb pd.key hmem
          rcases hcond with ⟨hkp, hcnd⟩ | ⟨hpk, hcnd⟩
          · refine Or.inl ⟨hkp, ?_⟩
            intro x hx hxp
            simp only [keysB, List.mem_append, List.mem_cons] at hx
            rcases hx with hxl | rfl | hxr
            · exact hcnd x hxl hxp
            · omega
            · have := hrb x hxr; omega
          · refine Or.inr ⟨hpk, ?_⟩
            intro x hx hpx
            simp only [keysB, List.mem_append, List.mem_cons] at hx
            rcases hx with hxl | rfl | hxr
            · exact hcnd x hxl hpx
            · omega
            · have := hrb x hxr; omega

theorem zseekLast_found (k : Int) : ∀ (t : ZTree) {lo hi : Option Int} (pv : Option ZData),
    bstB ZData.key lo hi t = true → k ∈ keysB ZData.key t →
    ∃ d, zseekLast k pv t = some d ∧ d.key = k := by
  intro t
  induction t with
  | lf => intro lo hi pv _ hk; simp [keysB] at hk
  | nd l d r ihl ihr =>
    intro lo hi pv hb hk
    have hb2 := hb
    simp only [bstB, Bool.and_eq_true] at hb2
    show ∃ d2, (if cmp3 k d.key = 0 then some d
        else if cmp3 k d.key < 0 then zseekLast k (some d) l
        else zseekLast k (some d) r) = some d2 ∧ d2.key = k
    by_cases heq : cmp3 k d.key = 0
    · rw [if_pos heq]
      exact ⟨d, rfl, (cmp3_eq_zero.mp heq).symm⟩
    · rw [if_neg heq]
      by_cases hlt : cmp3 k d.key < 0
      · rw [if_pos hlt]
        exact ihl (some d) hb2.1.2 (mem_node_left hb (cmp3_neg.mp hlt) hk)
      · rw [if_neg hlt]
        have hklt : d.key < k := by
          have h1 : ¬ k = d.key := fun h => heq (cmp3_eq_zero.mpr h)
          have h2 : ¬ k < d.key := fun h => hlt (cmp3_neg.mpr h)
          omega
        exact ihr (some d) hb2.2 (mem_node_right hb hklt hk)

theorem zseekLast_absent (k : Int) : ∀ (t : ZTree) {lo hi : Option Int} (pv : Option ZData),
    bstB ZData.key lo hi t = true → k ∉ keysB ZData.key t →
    (keysB ZData.key t = [] ∧ zseekLast k pv t = pv) ∨
    (∃ pd, zseekLast k pv t = some pd ∧ pd.key ∈ keysB ZData.key t ∧
      ((k < pd.key ∧ ∀ x ∈ keysB ZData.key t, x < pd.key → x < k) ∨
       (pd.key < k ∧ ∀ x ∈ keysB ZData.key t, pd.key < x → k < x))) := by
  intro t
  induction t with
  | lf => intro lo hi pv _ _; exact Or.inl ⟨rfl, rfl⟩
  | nd l d r ihl ihr =>
    intro lo hi pv hb hk
    have hb2 := hb
    simp only [bstB, Bool.and_eq_true] at hb2
    obtain ⟨⟨_, hbl⟩, hbr⟩ := hb2
    have hkd : ¬ k = d.key := fun h => hk (by simp [keysB, h])
    have hknl : k ∉ keysB ZData.key l := fun h => hk (by
      simp only [keysB, List.mem_append, List.mem_cons]
      exact Or.inl h)
    have hknr : k ∉ keysB ZData.key r := fun h => hk (by
      simp only [keysB, List.mem_append, List.mem_cons]
      exact Or.inr (Or.inr h))
    have hlb := fun x hx => (bst_bounds ZData.key l lo (some d.key) hbl x hx).2 d.key rfl
    have hrb := fun x hx => (bst_bounds ZData.key r (some d.key) hi hbr x hx).1 d.key rfl
    show (keysB ZData.key (.nd l d r) = [] ∧
        (if cmp3 k d.key = 0 then some d
          else if cmp3 k d.key < 0 then zseekLast k (some d) l
          else zseekLast k (some d) r) = pv) ∨
      (∃ pd, (if cmp3 k d.key = 0 then some d
          else if cmp3 k d.key < 0 then zseekLast k (some d) l
          else zseekLast k (some d) r) = some pd ∧
        pd.key ∈ keysB ZData.key (.nd l d r) ∧
        ((k < pd.key ∧ ∀ x ∈ keysB ZData.key (.nd l d r), x < pd.key → x < k) ∨
         (pd.key < k ∧ ∀ x ∈ keysB ZData.key (.nd l d r), pd.key < x → k < x)))
    rw [if_neg (fun h => hkd (cmp3_eq_zero.mp h))]
    by_cases hlt : cmp3 k d.key < 0
    · rw [if_pos hlt]
      have hdk : k < d.key := cmp3_neg.mp hlt
      rcases ihl (some d) hbl hknl with ⟨hnil, hstep2⟩ | ⟨pd, hstep2, hmem, hcond⟩
      · refine Or.inr ⟨d, hstep2, by simp [keysB], Or.inl ⟨hdk, ?_⟩⟩
        intro x hx hxd
        simp only [keysB, List.mem_append, List.mem_cons] at hx
        rcases hx with hxl | rfl | hxr
        · rw [hnil] at hxl; cases hxl
        · omega
        · have := hrb x hxr; omega
      · refine Or.inr ⟨pd, hstep2, ?_, ?_⟩
        · simp only [keysB, List.mem_append, List.mem_cons]
          exact Or.inl hmem
        · have hpdlt : pd.key < d.key := hlb pd.key hmem
          rcases hcond with ⟨hkp, hcnd⟩ | ⟨hpk, hcnd⟩
          · refine Or.inl ⟨hkp, ?_⟩
            intro x hx hxp
            simp only [keysB, List.mem_append, List.mem_cons] at hx
            rcases hx with hxl | rfl | hxr
            · exact hcnd x hxl hxp
            · omega
            · have := hrb x hxr; omega
          · refine Or.inr ⟨hpk, ?_⟩
            intro x hx hpx
            simp only [keysB, List.mem_append, List.mem_cons] at hx
            rcases hx with hxl | rfl | hxr
            · exact hcnd x hxl hpx
            · omega
            · have := hrb x hxr; omega
    · rw [if_neg hlt]
      have hdk : d.key < k := by
        have h2 : ¬ k < d.key := fun h => hlt (cmp3_neg.mpr h)
        omega
      rcases ihr (some d) hbr hknr with ⟨hnil, hstep2⟩ | ⟨pd, hstep2, hmem, hcond⟩
      · refine Or.inr ⟨d, hstep2, by simp [keysB], Or.inr ⟨hdk, ?_⟩⟩
        intro x hx hdx
        simp only [keysB, List.mem_append, List.mem_cons] at hx
        rcases hx with hxl | rfl | hxr
        · have := hlb x hxl; omega
        · omega
        · rw [hnil] at hxr; cases hxr
      · refine Or.inr ⟨pd, hstep2, ?_, ?_⟩
        · simp only [keysB, List.mem_append, List.mem_cons]
          exact Or.inr (Or.inr hmem)
        · have hpdgt : d.key < pd.key := hrb pd.key hmem
          rcases hcond with ⟨hkp, hcnd⟩ | ⟨hpk, hcnd⟩
          · refine Or.inl ⟨hkp, ?_⟩
            intro x hx hxp
            simp only [keysB, List.mem_append, List.mem_cons] at hx
            rcases hx with hxl | rfl | hxr
            · have := hlb x hxl; omega
            · omega
            · exact hcnd x hxr hxp
          · refine Or.inr ⟨hpk, ?_⟩
            intro x hx hpx
            simp only [keysB, List.mem_append, List.mem_cons] at hx
            rcases hx with hxl | rfl | hxr
            · have := hlb x hxl; omega
            · omega
            · exact hcnd x hxr hpx

theorem sFindGEQ_eq {st : SplaySt} (h : stFullB st = true) (k : Int) :
    sFindGEQ st.tree k = listGE (skeys st.tree) k := by
  obtain ⟨hb, hins, _, hth⟩ := stFull_parts h
  have hpw := bst_pairwise SData.key st.tree none none hb
  rw [skeys_def]
  by_cases hk : k ∈ keysB SData.key st.tree
  · obtain ⟨d, hstep, hdk, hdi⟩ := sfgeGo_found k st.tree none hb hins hk
    rw [sFindGEQ, hstep]
    show (if d.inserted = true then some d.key else sfgeFb st.tree (some d) k) = _
    rw [if_pos hdi, hdk, listGE_self hpw hk]
  · rcases sfgeGo_absent k st.tree none hb hins hk with ⟨hnil, hstep⟩ |
      ⟨pd, hstep, hmem, hcond⟩
    · rw [sFindGEQ, hstep]
      rw [hnil]
      rfl
    · rw [sFindGEQ, hstep]
      show (if cmp3 k pd.key < 0 then some pd.key else unlockNextK st.tree pd.key) = _
      rcases hcond with ⟨hkp, hcnd⟩ | ⟨hpk, hcnd⟩
      · rw [if_pos (cmp3_neg.mpr hkp)]
        exact (listGE_eq_of_lower hpw hmem (by omega)
          (fun x hx hxp => hcnd x hx hxp)).symm
      · rw [if_neg (fun h2 => by have := cmp3_neg.mp h2; omega)]
        rw [unlockNextK_succ hb hth hins hmem]
        exact (listGE_eq_succ hpk (fun x hx h2 => by have := hcnd x hx h2; omega)).symm

theorem zseek_eq {t : ZTree} (hb : bstB ZData.key none none t = true) (k : Int) :
    zseek t none k = listGE (zkeys t) k := by
  have hpw := bst_pairwise ZData.key t none none hb
  show zseek t none k = listGE (keysB ZData.key t) k
  by_cases hk : k ∈ keysB ZData.key t
  · obtain ⟨d, hstep, hdk⟩ := zseekLast_found k t none hb hk
    rw [zseek, hstep]
    show (if cmp3 k d.key = 0 then some d.key
      else if cmp3 k d.key > 0 then znextK t d.key else some d.key) = _
    rw [if_pos (cmp3_eq_zero.mpr hdk.symm), hdk, listGE_self hpw hk]
  · rcases zseekLast_absent k t none hb hk with ⟨hnil, hstep⟩ |
      ⟨pd, hstep, hmem, hcond⟩
    · rw [zseek, hstep, hnil]
      rfl
    · have hne : ¬ k = pd.key := fun h2 => hk (h2 ▸ hmem)
      rw [zseek, hstep]
      show (if cmp3 k pd.key = 0 then some pd.key
        else if cmp3 k pd.key > 0 then znextK t pd.key else some pd.key) = _
      rw [if_neg (fun h2 => hne (cmp3_eq_zero.mp h2))]
      rcases hcond with ⟨hkp, hcnd⟩ | ⟨hpk, hcnd⟩
      · rw [if_neg (fun h2 => by have h3 := cmp3_pos.mp h2; omega)]
        exact (listGE_eq_of_lower hpw hmem (by omega)
          (fun x hx hxp => hcnd x hx hxp)).symm
      · rw [if_pos (cmp3_pos.mpr hpk)]
        rw [znextK_succ hb hmem]
        exact (listGE_eq_succ hpk (fun x hx h2 => by have := hcnd x hx h2; omega)).symm

/-- C6 (amended): the Seek property does not hold on every tree with
distinct stored keys — Delete leaves stale threads that make the splay
fallback miss stored keys (see the counterexample).  On every splay state
satisfying the full invariant stFullB (all insert-only reachable states)
and on every zip tree in BST order, the iterator Seek lands on the
smallest stored key greater than or equal to the target (none — an
invalid cursor — when the target exceeds every stored key), and
SeekToFirst/SeekToLast land on the global minimum/maximum (none on the
empty tree). -/
theorem claimC6 :
    (∀ (st : SplaySt) (k : Int), stFullB st = true →
      sFindGEQ st.tree k = listGE (skeys st.tree) k ∧
      firstS st.tree = (skeys st.tree).head? ∧
      lastS st.tree = (skeys st.tree).getLast?) ∧
    (∀ (t : ZTree) (k : Int), zbstB none none t = true →
      zseek t none k = listGE (zkeys t) k ∧
      zfirst t = (zkeys t).head? ∧
      zlast t = (zkeys t).getLast?) := by
  constructor
  · intro st k h
    obtain ⟨_, hins, _, _⟩ := stFull_parts h
    exact ⟨sFindGEQ_eq h k, by rw [skeys_def]; exact firstS_head hins,
      by rw [skeys_def]; exact lastS_getLast hins⟩
  · intro t k hb
    refine ⟨zseek_eq hb k, ?_, ?_⟩
    · show (leftmostD t).map ZData.key = _
      rw [leftmost_head]
      rfl
    · show (rightmostD t).map ZData.key = _
      rw [rightmost_last]
      rfl

/-- Counterexample to C6 as stated: on the Insert/Delete-reachable splay
state obtained by deleting 2 from the three-key tree, the stored keys are
[1, 3] yet UnlockFindGreaterOrEqual at target 2 returns none instead of
the stored 3 — the descent ends below node 1, whose stale ancestor_next
thread names the deleted key 2 (where the source dereferences freed
memory), so the fallback finds nothing. -/
theorem claimC6_cex :
    stOkB (deleteS (buildS [1, 2, 3]) 2).2 = true ∧
    skeys (deleteS (buildS [1, 2, 3]) 2).2.tree = [1, 3] ∧
    sFindGEQ (deleteS (buildS [1, 2, 3]) 2).2.tree 2 = none ∧
    listGE (skeys (deleteS (buildS [1, 2, 3]) 2).2.tree) 2 = some 3 := by
  decide

/-- Witness for C6: the three-key splay state built by inserts and a
concrete two-node zip tree, probed at target 2. -/
theorem claimC6_witness :
    (sFindGEQ (buildS [1, 3]).tree 2 = listGE (skeys (buildS [1, 3]).tree) 2 ∧
      firstS (buildS [1, 3]).tree = (skeys (buildS [1, 3]).tree).head? ∧
      lastS (buildS [1, 3]).tree = (skeys (buildS [1, 3]).tree).getLast?) ∧
    (zseek (BT.nd (BT.nd BT.lf ⟨1, 2⟩ BT.lf) ⟨3, 5⟩ BT.lf) none 2 =
        listGE (zkeys (BT.nd (BT.nd BT.lf ⟨1, 2⟩ BT.lf) ⟨3, 5⟩ BT.lf)) 2 ∧
      zfirst (BT.nd (BT.nd BT.lf ⟨1, 2⟩ BT.lf) ⟨3, 5⟩ BT.lf) =
        (zkeys (BT.nd (BT.nd BT.lf ⟨1, 2⟩ BT.lf) ⟨3, 5⟩ BT.lf)).head? ∧
      zlast (BT.nd (BT.nd BT.lf ⟨1, 2⟩ BT.lf) ⟨3, 5⟩ BT.lf) =
        (zkeys (BT.nd (BT.nd BT.lf ⟨1, 2⟩ BT.lf) ⟨3, 5⟩ BT.lf)).getLast?) :=
  ⟨claimC6.1 (buildS [1, 3]) 2 (by decide),
   claimC6.2 (BT.nd (BT.nd BT.lf ⟨1, 2⟩ BT.lf) ⟨3, 5⟩ BT.lf) 2 (by decide)⟩

/-! ## Claim C7: full iteration and Next/Prev inversion -/

theorem listSucc_mid {pre post : List Int} {k : Int}
    (h : (pre ++ k :: post).Pairwise (fun a b => a < b)) :
    listSucc (pre ++ k :: post) k = post.head? := by
  rw [List.pairwise_append] at h
  rw [listSucc_append]
  have h1 : listSucc pre k = none := listSucc_all_lt
    (fun x hx => h.2.2 x hx k (List.mem_cons_self k post))
  rw [h1, optOr_none, listSucc_cons, if_neg (by omega)]
  exact listSucc_all_gt (fun x hx => (List.pairwise_cons.mp h.2.1).1 x hx)

theorem listPred_mid {pre post : List Int} {k : Int}
    (h : (pre ++ k :: post).Pairwise (fun a b => a < b)) :
    listPred (pre ++ k :: post) k = pre.getLast? := by
  rw [List.pairwise_append] at h
  rw [listPred_append, listPred_cons, if_neg (by omega), optOr_none_right]
  have h1 : listPred post k = none := listPred_all_gt
    (fun x hx => (List.pairwise_cons.mp h.2.1).1 x hx)
  rw [h1, optOr_none]
  exact listPred_all_lt (fun x hx => h.2.2 x hx k (List.mem_cons_self k post))

theorem iterG_post (f : Int → Option Int) (xs : List Int)
    (hnext : ∀ x ∈ xs, f x = listSucc xs x) (hpw : xs.Pairwise (fun a b => a < b)) :
    ∀ (post pre : List Int) (k : Int) (fuel : Nat),
      xs = pre ++ k :: post → post.length < fuel →
      iterG f fuel (some k) = k :: post := by
  intro post
  induction post with
  | nil =>
    intro pre k fuel hxs hf
    cases fuel with
    | zero => omega
    | succ f2 =>
      show k :: iterG f f2 (f k) = [k]
      have hk : k ∈ xs := by rw [hxs]; simp
      rw [hnext k hk, hxs, listSucc_mid (hxs ▸ hpw)]
      show k :: iterG f f2 none = [k]
      cases f2 <;> rfl
  | cons q post ih =>
    intro pre k fuel hxs hf
    cases fuel with
    | zero => omega
    | succ f2 =>
      show k :: iterG f f2 (f k) = k :: q :: post
      have hk : k ∈ xs := by rw [hxs]; simp
      rw [hnext k hk, hxs, listSucc_mid (hxs ▸ hpw)]
      show k :: iterG f f2 (some q) = k :: q :: post
      rw [ih (pre ++ [k]) q f2 (by rw [hxs]; simp) (by simp at hf ⊢; omega)]

theorem iterG_pre (f : Int → Option Int) (xs : List Int)
    (hnext : ∀ x ∈ xs, f x = listPred xs x) (hpw : xs.Pairwise (fun a b => a < b)) :
    ∀ (pre post : List Int) (k : Int) (fuel : Nat),
      xs = pre ++ k :: post → pre.length < fuel →
      iterG f fuel (some k) = k :: pre.reverse := by
  intro pre
  induction pre using List.reverseRecOn with
  | nil =>
    intro post k fuel hxs hf
    cases fuel with
    | zero => omega
    | succ f2 =>
      show k :: iterG f f2 (f k) = [k]
      have hk : k ∈ xs := by rw [hxs]; simp
      rw [hnext k hk, hxs, listPred_mid (hxs ▸ hpw)]
      show k :: iterG f f2 none = [k]
      cases f2 <;> rfl
  | append_singleton ps p ih =>
    intro post k fuel hxs hf
    cases fuel with
    | zero => omega
    | succ f2 =>
      show k :: iterG f f2 (f k) = k :: (ps ++ [p]).reverse
      have hk : k ∈ xs := by rw [hxs]; simp
      rw [hnext k hk, hxs, listPred_mid (hxs ▸ hpw), List.getLast?_concat]
      rw [ih (k :: post) p f2 (by rw [hxs]; simp) (by simp at hf ⊢; omega)]
      simp

theorem iterG_full {f : Int → Option Int} {xs : List Int} {fuel : Nat}
    (hnext : ∀ x ∈ xs, f x = listSucc xs x) (hpw : xs.Pairwise (fun a b => a < b))
    (hf : xs.length ≤ fuel) : iterG f fuel xs.head? = xs := by
  cases xs with
  | nil => cases fuel <;> rfl
  | cons k post =>
    exact iterG_post f (k :: post) hnext hpw post [] k fuel rfl (by simp at hf; omega)

theorem iterG_full_rev {f : Int → Option Int} {xs : List Int} {fuel : Nat}
    (hnext : ∀ x ∈ xs, f x = listPred xs x) (hpw : xs.Pairwise (fun a b => a < b))
    (hf : xs.length ≤ fuel) : iterG f fuel xs.getLast? = xs.reverse := by
  induction xs using List.reverseRecOn with
  | nil => cases fuel <;> rfl
  | append_singleton ps p =>
    rw [List.getLast?_concat]
    rw [iterG_pre f (ps ++ [p]) hnext hpw ps [] p fuel rfl (by simp at hf; omega)]
    simp

theorem succ_pred_inverse {xs : List Int} {k k2 : Int}
    (hpw : xs.Pairwise (fun a b => a < b)) (hk : k ∈ xs)
    (hs : listSucc xs k = some k2) : k2 ∈ xs ∧ listPred xs k2 = some k := by
  obtain ⟨pre, post, rfl⟩ := List.append_of_mem hk
  rw [listSucc_mid hpw] at hs
  cases post with
  | nil => cases hs
  | cons q post2 =>
    simp only [List.head?_cons, Option.some.injEq] at hs
    subst hs
    constructor
    · simp
    · have hxs2 : pre ++ k :: q :: post2 = (pre ++ [k]) ++ q :: post2 := by simp
      rw [hxs2] at hpw ⊢
      rw [listPred_mid hpw]
      simp

theorem pred_succ_inverse {xs : List Int} {k k2 : Int}
    (hpw : xs.Pairwise (fun a b => a < b)) (hk : k ∈ xs)
    (hs : listPred xs k = some k2) : k2 ∈ xs ∧ listSucc xs k2 = some k := by
  obtain ⟨pre, post, rfl⟩ := List.append_of_mem hk
  rw [listPred_mid hpw] at hs
  induction pre using List.reverseRecOn with
  | nil => cases hs
  | append_singleton ps p =>
    rw [List.getLast?_concat] at hs
    simp only [Option.some.injEq] at hs
    subst hs
    have hxs2 : (ps ++ [p]) ++ k :: post = ps ++ p :: (k :: post) := by simp
    rw [hxs2] at hpw ⊢
    constructor
    · simp
    · rw [listSucc_mid hpw]
      rfl

theorem iterFwdS_eq (t : STree) : ∀ (fuel : Nat) (c : Option Int),
    iterFwdS t fuel c = iterG (unlockNextK t) fuel c := by
  intro fuel
  induction fuel with
  | zero => intro c; cases c <;> rfl
  | succ f2 ih =>
    intro c
    cases c with
    | none => rfl
    | some k =>
      show k :: iterFwdS t f2 (unlockNextK t k) = k :: iterG (unlockNextK t) f2 (unlockNextK t k)
      rw [ih]

theorem iterBwdS_eq (t : STree) : ∀ (fuel : Nat) (c : Option Int),
    iterBwdS t fuel c = iterG (unlockPrevK t) fuel c := by
  intro fuel
  induction fuel with
  | zero => intro c; cases c <;> rfl
  | succ f2 ih =>
    intro c
    cases c with
    | none => rfl
    | some k =>
      show k :: iterBwdS t f2 (unlockPrevK t k) = k :: iterG (unlockPrevK t) f2 (unlockPrevK t k)
      rw [ih]

theorem iterFwdZ_eq (t : ZTree) : ∀ (fuel : Nat) (c : Option Int),
    iterFwdZ t fuel c = iterG (znextK t) fuel c := by
  intro fuel
  induction fuel with
  | zero => intro c; cases c <;> rfl
  | succ f2 ih =>
    intro c
    cases c with
    | none => rfl
    | some k =>
      show k :: iterFwdZ t f2 (znextK t k) = k :: iterG (znextK t) f2 (znextK t k)
      rw [ih]

theorem iterBwdZ_eq (t : ZTree) : ∀ (fuel : Nat) (c : Option Int),
    iterBwdZ t fuel c = iterG (zprevK t) fuel c := by
  intro fuel
  induction fuel with
  | zero => intro c; cases c <;> rfl
  | succ f2 ih =>
    intro c
    cases c with
    | none => rfl
    | some k =>
      show k :: iterBwdZ t f2 (zprevK t k) = k :: iterG (zprevK t) f2 (zprevK t k)
      rw [ih]

/-- C7: with enough fuel (at least the number of stored keys), SeekToFirst
followed by repeated Next lists exactly the stored keys in ascending order
(then the cursor goes invalid), SeekToLast followed by repeated Prev lists
them descending; and Next then Prev (or Prev then Next) from any position
where the first step lands on a node returns to the starting key.  Splay
side under the full invariant, zip side under BST order. -/
theorem claimC7 :
    (∀ (st : SplaySt) (fuel : Nat), stFullB st = true →
      (skeys st.tree).length ≤ fuel →
      iterFwdS st.tree fuel (firstS st.tree) = skeys st.tree ∧
      iterBwdS st.tree fuel (lastS st.tree) = (skeys st.tree).reverse) ∧
    (∀ (st : SplaySt) (k k2 : Int), stFullB st = true → k ∈ skeys st.tree →
      (unlockNextK st.tree k = some k2 → unlockPrevK st.tree k2 = some k) ∧
      (unlockPrevK st.tree k = some k2 → unlockNextK st.tree k2 = some k)) ∧
    (∀ (t : ZTree) (fuel : Nat), zbstB none none t = true →
      (zkeys t).length ≤ fuel →
      iterFwdZ t fuel (zfirst t) = zkeys t ∧
      iterBwdZ t fuel (zlast t) = (zkeys t).reverse) ∧
    (∀ (t : ZTree) (k k2 : Int), zbstB none none t = true → k ∈ zkeys t →
      (znextK t k = some k2 → zprevK t k2 = some k) ∧
      (zprevK t k = some k2 → znextK t k2 = some k)) := by
  refine ⟨?_, ?_, ?_, ?_⟩
  · intro st fuel h hf
    obtain ⟨hb, hins, _, hth⟩ := stFull_parts h
    have hpw := bst_pairwise SData.key st.tree none none hb
    rw [skeys_def] at hf ⊢
    constructor
    · rw [iterFwdS_eq, firstS_head hins]
      exact iterG_full (fun x hx => unlockNextK_succ hb hth hins hx) hpw hf
    · rw [iterBwdS_eq, lastS_getLast hins]
      exact iterG_full_rev (fun x hx => unlockPrevK_pred hb hth hins hx) hpw hf
  · intro st k k2 h hk
    obtain ⟨hb, hins, _, hth⟩ := stFull_parts h
    have hpw := bst_pairwise SData.key st.tree none none hb
    rw [skeys_def] at hk
    constructor
    · intro hn
      rw [unlockNextK_succ hb hth hins hk] at hn
      obtain ⟨hmem2, hp⟩ := succ_pred_inverse hpw hk hn
      rw [unlockPrevK_pred hb hth hins hmem2]
      exact hp
    · intro hn
      rw [unlockPrevK_pred hb hth hins hk] at hn
      obtain ⟨hmem2, hp⟩ := pred_succ_inverse hpw hk hn
      rw [unlockNextK_succ hb hth hins hmem2]
      exact hp
  · intro t fuel hb hf
    have hb2 : bstB ZData.key none none t = true := hb
    have hpw := bst_pairwise ZData.key t none none hb2
    have hf2 : (keysB ZData.key t).length ≤ fuel := hf
    constructor
    · show iterFwdZ t fuel (zfirst t) = keysB ZData.key t
      rw [iterFwdZ_eq]
      have hfirst : zfirst t = (keysB ZData.key t).head? := by
        show (leftmostD t).map ZData.key = _
        rw [leftmost_head]
      rw [hfirst]
      exact iterG_full (fun x hx => znextK_succ hb2 hx) hpw hf2
    · show iterBwdZ t fuel (zlast t) = (keysB ZData.key t).reverse
      rw [iterBwdZ_eq]
      have hlast : zlast t = (keysB ZData.key t).getLast? := by
        show (rightmostD t).map ZData.key = _
        rw [rightmost_last]
      rw [hlast]
      exact iterG_full_rev (fun x hx => zprevK_pred hb2 hx) hpw hf2
  · intro t k k2 hb hk
    have hb2 : bstB ZData.key none none t = true := hb
    have hpw := bst_pairwise ZData.key t none none hb2
    have hk2 : k ∈ keysB ZData.key t := hk
    constructor
    · intro hn
      rw [znextK_succ hb2 hk2] at hn
      obtain ⟨hmem2, hp⟩ := succ_pred_inverse hpw hk2 hn
      rw [zprevK_pred hb2 hmem2]
      exact hp
    · intro hn
      rw [zprevK_pred hb2 hk2] at hn
      obtain ⟨hmem2, hp⟩ := pred_succ_inverse hpw hk2 hn
      rw [znextK_succ hb2 hmem2]
      exact hp

/-- Witness for C7: the two-key splay state and a two-node zip tree, full
walks with fuel 2 and one Next/Prev round trip in each direction. -/
theorem claimC7_witness :
    (iterFwdS (buildS [1, 2]).tree 2 (firstS (buildS [1, 2]).tree) =
        skeys (buildS [1, 2]).tree ∧
      iterBwdS (buildS [1, 2]).tree 2 (lastS (buildS [1, 2]).tree) =
        (skeys (buildS [1, 2]).tree).reverse) ∧
    unlockPrevK (buildS [1, 2]).tree 2 = some 1 ∧
    unlockNextK (buildS [1, 2]).tree 1 = some 2 ∧
    (iterFwdZ (BT.nd (BT.nd BT.lf ⟨1, 2⟩ BT.lf) ⟨3, 5⟩ BT.lf) 2
        (zfirst (BT.nd (BT.nd BT.lf ⟨1, 2⟩ BT.lf) ⟨3, 5⟩ BT.lf)) =
        zkeys (BT.nd (BT.nd BT.lf ⟨1, 2⟩ BT.lf) ⟨3, 5⟩ BT.lf) ∧
      iterBwdZ (BT.nd (BT.nd BT.lf ⟨1, 2⟩ BT.lf) ⟨3, 5⟩ BT.lf) 2
        (zlast (BT.nd (BT.nd BT.lf ⟨1, 2⟩ BT.lf) ⟨3, 5⟩ BT.lf)) =
        (zkeys (BT.nd (BT.nd BT.lf ⟨1, 2⟩ BT.lf) ⟨3, 5⟩ BT.lf)).reverse) ∧
    zprevK (BT.nd (BT.nd BT.lf ⟨1, 2⟩ BT.lf) ⟨3, 5⟩ BT.lf) 3 = some 1 ∧
    znextK (BT.nd (BT.nd BT.lf ⟨1, 2⟩ BT.lf) ⟨3, 5⟩ BT.lf) 1 = some 3 :=
  ⟨claimC7.1 (buildS [1, 2]) 2 (by decide) (by decide),
   (claimC7.2.1 (buildS [1, 2]) 1 2 (by decide) (by decide)).1 (by decide),
   (claimC7.2.1 (buildS [1, 2]) 2 1 (by decide) (by decide)).2 (by decide),
   claimC7.2.2.1 (BT.nd (BT.nd BT.lf ⟨1, 2⟩ BT.lf) ⟨3, 5⟩ BT.lf) 2 (by decide) (by decide),
   (claimC7.2.2.2 (BT.nd (BT.nd BT.lf ⟨1, 2⟩ BT.lf) ⟨3, 5⟩ BT.lf) 1 3
      (by decide) (by decide)).1 (by decide),
   (claimC7.2.2.2 (BT.nd (BT.nd BT.lf ⟨1, 2⟩ BT.lf) ⟨3, 5⟩ BT.lf) 3 1
      (by decide) (by decide)).2 (by decide)⟩

/-! ## Claim C5: the zip-tree invariants -/

theorem rankLtB_iff {a : Option Int} {b : Int} :
    rankLtB a b = true ↔ ∀ x, a = some x → x < b := by
  cases a <;> simp [rankLtB]

theorem rankLeB_iff {a : Option Int} {b : Int} :
    rankLeB a b = true ↔ ∀ x, a = some x → x ≤ b := by
  cases a <;> simp [rankLeB]

theorem heapB_nd {l : ZTree} {d : ZData} {r : ZTree} :
    heapB (.nd l d r) = true ↔
      ((∀ x, rootRank l = some x → x < d.rank) ∧
       (∀ x, rootRank r = some x → x ≤ d.rank) ∧
       heapB l = true ∧ heapB r = true) := by
  simp only [heapB, Bool.and_eq_true, rankLtB_iff, rankLeB_iff]
  tauto

theorem recInsert_spec (xk xr : Int) : ∀ (t : ZTree) {lo hi : Option Int},
    zbstB lo hi t = true → heapB t = true → loP lo xk → hiP xk hi →
    xk ∉ keysB ZData.key t →
    (∀ t2, recInsert xk xr t = .deep t2 →
       zbstB lo hi t2 = true ∧ heapB t2 = true ∧
       (∀ y, y ∈ keysB ZData.key t2 ↔ (y = xk ∨ y ∈ keysB ZData.key t)) ∧
       ∃ l0 d0 r0 l2 r2, t = .nd l0 d0 r0 ∧ t2 = .nd l2 d0 r2) ∧
    (∀ xl xrt, recInsert xk xr t = .xroot xl xrt →
       zbstB lo (some xk) xl = true ∧ zbstB (some xk) hi xrt = true ∧
       heapB xl = true ∧ heapB xrt = true ∧
       (∀ a, rootRank xl = some a → a < xr ∧ ∃ b, rootRank t = some b ∧ a ≤ b) ∧
       (∀ a, rootRank xrt = some a → a ≤ xr ∧ ∃ b, rootRank t = some b ∧ a ≤ b) ∧
       (∀ y, (y ∈ keysB ZData.key xl ∨ y ∈ keysB ZData.key xrt) ↔ y ∈ keysB ZData.key t)) := by
  intro t
  induction t with
  | lf =>
    intro lo hi _ _ _ _ _
    constructor
    · intro t2 h
      simp [recInsert] at h
    · intro xl xrt h
      simp only [recInsert, ZRes.xroot.injEq] at h
      obtain ⟨rfl, rfl⟩ := h
      refine ⟨rfl, rfl, rfl, rfl, ?_, ?_, ?_⟩
      · intro a ha; simp [rootRank] at ha
      · intro a ha; simp [rootRank] at ha
      · intro y; simp [keysB]
  | nd l d r ihl ihr =>
    intro lo hi hb hh hplo hphi hk
    simp only [zbstB, bstB, Bool.and_eq_true] at hb
    obtain ⟨⟨⟨hlo', hhi'⟩, hbl⟩, hbr⟩ := hb
    rw [heapB_nd] at hh
    obtain ⟨hrl, hrr, hhl, hhr⟩ := hh
    simp only [keysB, List.mem_append, List.mem_cons, not_or] at hk
    obtain ⟨hk1, hk2, hk3⟩ := hk
    by_cases hc : cmp3 xk d.key < 0
    · -- descend left
      have hxkd : xk < d.key := cmp3_neg.mp hc
      have hphi2 : hiP xk (some d.key) := fun b hb => by cases hb; exact hxkd
      cases hrec : recInsert xk xr l with
      | deep l2 =>
        have hspec := (ihl hbl hhl hplo hphi2 hk1).1 l2 hrec
        obtain ⟨hbst2, hheap2, hmem2, l0, d0, r0, l2a, r2a, hleq, hl2eq⟩ := hspec
        constructor
        · intro t2 ht2
          simp only [recInsert, if_pos hc, hrec, ZRes.deep.injEq] at ht2
          subst ht2
          refine ⟨?_, ?_, ?_, ⟨l, d, r, l2, r, rfl, rfl⟩⟩
          · simp only [zbstB, bstB, Bool.and_eq_true]
            exact ⟨⟨⟨hlo', hhi'⟩, hbst2⟩, hbr⟩
          · rw [heapB_nd]
            refine ⟨?_, hrr, hheap2, hhr⟩
            intro x hx
            apply hrl
            rw [hl2eq] at hx
            rw [hleq]
            simpa [rootRank] using hx
          · intro y
            simp only [keysB, List.mem_append, List.mem_cons]
            have := hmem2 y
            tauto
        · intro xl xrt h
          simp only [recInsert, if_pos hc, hrec] at h
          cases h
      | xroot xl0 xrt0 =>
        have hspec := (ihl hbl hhl hplo hphi2 hk1).2 xl0 xrt0 hrec
        obtain ⟨hbxl, hbxrt, hhxl, hhxrt, hrkxl, hrkxrt, hmem0⟩ := hspec
        by_cases hin : xr < d.rank
        · constructor
          · intro t2 ht2
            simp only [recInsert, if_pos hc, hrec, if_pos hin, ZRes.deep.injEq] at ht2
            subst ht2
            refine ⟨?_, ?_, ?_, ⟨l, d, r, .nd xl0 ⟨xk, xr⟩ xrt0, r, rfl, rfl⟩⟩
            · simp only [zbstB, bstB, Bool.and_eq_true] at hbxl hbxrt ⊢
              refine ⟨⟨⟨hlo', hhi'⟩, ⟨⟨⟨?_, ?_⟩, hbxl⟩, hbxrt⟩⟩, hbr⟩
              · exact loLt_iff.mpr hplo
              · exact ltHi_iff.mpr hphi2
            · rw [heapB_nd]
              refine ⟨?_, hrr, ?_, hhr⟩
              · intro x hx
                simp only [rootRank, Option.some.injEq] at hx
                omega
              · rw [heapB_nd]
                refine ⟨?_, ?_, hhxl, hhxrt⟩
                · intro x hx; exact (hrkxl x hx).1
                · intro x hx; exact (hrkxrt x hx).1
            · intro y
              simp only [keysB, List.mem_append, List.mem_cons]
              have := hmem0 y
              tauto
          · intro xl xrt h
            simp only [recInsert, if_pos hc, hrec, if_pos hin] at h
            cases h
        · constructor
          · intro t2 ht2
            simp only [recInsert, if_pos hc, hrec, if_neg hin] at ht2
            cases ht2
          · intro xl xrt h
            simp only [recInsert, if_pos hc, hrec, if_neg hin, ZRes.xroot.injEq] at h
            obtain ⟨rfl, rfl⟩ := h
            refine ⟨hbxl, ?_, hhxl, ?_, ?_, ?_, ?_⟩
            · simp only [zbstB, bstB, Bool.and_eq_true] at hbxrt ⊢
              refine ⟨⟨⟨?_, hhi'⟩, hbxrt⟩, hbr⟩
              exact loLt_iff.mpr (fun b hb => by cases hb; exact hxkd)
            · rw [heapB_nd]
              refine ⟨?_, hrr, hhxrt, hhr⟩
              intro x hx
              obtain ⟨_, b, hbeq, hab⟩ := hrkxrt x hx
              have := hrl b hbeq
              omega
            · intro a ha
              obtain ⟨h1, b, hbeq, hab⟩ := hrkxl a ha
              have := hrl b hbeq
              exact ⟨h1, d.rank, by simp [rootRank], by omega⟩
            · intro a ha
              simp only [rootRank, Option.some.injEq] at ha
              subst ha
              exact ⟨by omega, d.rank, by simp [rootRank], le_refl _⟩
            · intro y
              simp only [keysB, List.mem_append, List.mem_cons]
              have := hmem0 y
              tauto
    · -- descend right
      have hxkd : d.key < xk := by
        rcases lt_trichotomy xk d.key with h | h | h
        · exact absurd (cmp3_neg.mpr h) hc
        · exact absurd h hk2
        · exact h
      have hplo2 : loP (some d.key) xk := fun b hb => by cases hb; exact hxkd
      cases hrec : recInsert xk xr r with
      | deep r2 =>
        have hspec := (ihr hbr hhr hplo2 hphi hk3).1 r2 hrec
        obtain ⟨hbst2, hheap2, hmem2, l0, d0, r0, l2a, r2a, hleq, hl2eq⟩ := hspec
        constructor
        · intro t2 ht2
          simp only [recInsert, if_neg hc, hrec, ZRes.deep.injEq] at ht2
          subst ht2
          refine ⟨?_, ?_, ?_, ⟨l, d, r, l, r2, rfl, rfl⟩⟩
          · simp only [zbstB, bstB, Bool.and_eq_true]
            exact ⟨⟨⟨hlo', hhi'⟩, hbl⟩, hbst2⟩
          · rw [heapB_nd]
            refine ⟨hrl, ?_, hhl, hheap2⟩
            intro x hx
            apply hrr
            rw [hl2eq] at hx
            rw [hleq]
            simpa [rootRank] using hx
          · intro y
            simp only [keysB, List.mem_append, List.mem_cons]
            have := hmem2 y
            tauto
        · intro xl xrt h
          simp only [recInsert, if_neg hc, hrec] at h
          cases h
      | xroot xl0 xrt0 =>
        have hspec := (ihr hbr hhr hplo2 hphi hk3).2 xl0 xrt0 hrec
        obtain ⟨hbxl, hbxrt, hhxl, hhxrt, hrkxl, hrkxrt, hmem0⟩ := hspec
        by_cases hin : xr ≤ d.rank
        · constructor
          · intro t2 ht2
            simp only [recInsert, if_neg hc, hrec, if_pos hin, ZRes.deep.injEq] at ht2
            subst ht2
            refine ⟨?_, ?_, ?_, ⟨l, d, r, l, .nd xl0 ⟨xk, xr⟩ xrt0, rfl, rfl⟩⟩
            · simp only [zbstB, bstB, Bool.and_eq_true] at hbxl hbxrt ⊢
              refine ⟨⟨⟨hlo', hhi'⟩, hbl⟩, ⟨⟨⟨?_, ?_⟩, hbxl⟩, hbxrt⟩⟩
              · exact loLt_iff.mpr hplo2
              · exact ltHi_iff.mpr hphi
            · rw [heapB_nd]
              refine ⟨hrl, ?_, hhl, ?_⟩
              · intro x hx
                simp only [rootRank, Option.some.injEq] at hx
                omega
              · rw [heapB_nd]
                refine ⟨?_, ?_, hhxl, hhxrt⟩
                · intro x hx; exact (hrkxl x hx).1
                · intro x hx; exact (hrkxrt x hx).1
            · intro y
              simp only [keysB, List.mem_append, List.mem_cons]
              have := hmem0 y
              tauto
          · intro xl xrt h
            simp only [recInsert, if_neg hc, hrec, if_pos hin] at h
            cases h
        · constructor
          · intro t2 ht2
            simp only [recInsert, if_neg hc, hrec, if_neg hin] at ht2
            cases ht2
          · intro xl xrt h
            simp only [recInsert, if_neg hc, hrec, if_neg hin, ZRes.xroot.injEq] at h
            obtain ⟨rfl, rfl⟩ := h
            refine ⟨?_, hbxrt, ?_, hhxrt, ?_, ?_, ?_⟩
            · simp only [zbstB, bstB, Bool.and_eq_true] at hbxl ⊢
              refine ⟨⟨⟨hlo', ?_⟩, hbl⟩, hbxl⟩
              exact ltHi_iff.mpr (fun b hb => by cases hb; exact hxkd)
            · rw [heapB_nd]
              refine ⟨hrl, ?_, hhl, hhxl⟩
              intro x hx
              obtain ⟨_, b, hbeq, hab⟩ := hrkxl x hx
              have := hrr b hbeq
              omega
            · intro a ha
              simp only [rootRank, Option.some.injEq] at ha
              subst ha
              exact ⟨by omega, d.rank, by simp [rootRank], le_refl _⟩
            · intro a ha
              obtain ⟨h1, b, hbeq, hab⟩ := hrkxrt a ha
              have := hrr b hbeq
              exact ⟨h1, d.rank, by simp [rootRank], by omega⟩
            · intro y
              simp only [keysB, List.mem_append, List.mem_cons]
              have := hmem0 y
              tauto

theorem zinsert_wf {t : ZTree} {xk xr : Int}
    (hb : zbstB none none t = true) (hh : heapB t = true)
    (hk : xk ∉ keysB ZData.key t) :
    zbstB none none (zinsert t xk xr) = true ∧ heapB (zinsert t xk xr) = true ∧
    (∀ y, y ∈ keysB ZData.key (zinsert t xk xr) ↔ (y = xk ∨ y ∈ keysB ZData.key t)) := by
  have hspec := recInsert_spec xk xr t hb hh (loP_none xk) (hiP_none xk) hk
  rw [zinsert]
  cases hrec : recInsert xk xr t with
  | deep t2 =>
    obtain ⟨h1, h2, h3, _⟩ := hspec.1 t2 hrec
    exact ⟨h1, h2, h3⟩
  | xroot xl xrt =>
    obtain ⟨h1, h2, h3, h4, h5, h6, h7⟩ := hspec.2 xl xrt hrec
    refine ⟨?_, ?_, ?_⟩
    · simp only [zbstB, bstB, Bool.and_eq_true] at h1 h2 ⊢
      exact ⟨⟨⟨rfl, rfl⟩, h1⟩, h2⟩
    · rw [heapB_nd]
      refine ⟨?_, ?_, h3, h4⟩
      · intro x hx; exact (h5 x hx).1
      · intro x hx; exact (h6 x hx).1
    · intro y
      simp only [keysB, List.mem_append, List.mem_cons]
      have := h7 y
      tauto

theorem buildZ_go : ∀ (ps : List (Int × Int)) (t : ZTree),
    zbstB none none t = true → heapB t = true →
    (ps.map Prod.fst).Nodup → (∀ q ∈ ps, q.1 ∉ keysB ZData.key t) →
    zbstB none none (ps.foldl (fun t q => zinsert t q.1 q.2) t) = true ∧
    heapB (ps.foldl (fun t q => zinsert t q.1 q.2) t) = true ∧
    (∀ y, y ∈ keysB ZData.key (ps.foldl (fun t q => zinsert t q.1 q.2) t) ↔
      (y ∈ keysB ZData.key t ∨ y ∈ ps.map Prod.fst)) := by
  intro ps
  induction ps with
  | nil =>
    intro t hb hh _ _
    exact ⟨hb, hh, fun y => by simp⟩
  | cons q ps ih =>
    intro t hb hh hnd hdisj
    simp only [List.map_cons, List.nodup_cons] at hnd
    obtain ⟨hq, hnd2⟩ := hnd
    have hqk : q.1 ∉ keysB ZData.key t := hdisj q (by simp)
    obtain ⟨hb2, hh2, hmem2⟩ := zinsert_wf hb hh hqk
    simp only [List.foldl_cons]
    have hdisj2 : ∀ p ∈ ps, p.1 ∉ keysB ZData.key (zinsert t q.1 q.2) := by
      intro p hp hmem
      rw [hmem2 p.1] at hmem
      rcases hmem with h | h
      · exact hq (h ▸ List.mem_map_of_mem Prod.fst hp)
      · exact hdisj p (by simp [hp]) h
    obtain ⟨hb3, hh3, hmem3⟩ := ih (zinsert t q.1 q.2) hb2 hh2 hnd2 hdisj2
    refine ⟨hb3, hh3, ?_⟩
    intro y
    rw [hmem3 y, hmem2 y]
    simp only [List.map_cons, List.mem_cons]
    tauto

/-- C5: in every zip tree reachable by Insert of pairwise-distinct keys
(ranks arbitrary, covering whatever RandomRank draws), every node
satisfies the BST key ordering and the max-heap rank property with the
deterministic tie-break the code enforces: rank strictly above the left
child's rank, at or above the right child's rank. -/
theorem claimC5 (ps : List (Int × Int)) (hnd : (ps.map Prod.fst).Nodup) :
    zbstB none none (buildZ ps) = true ∧ heapB (buildZ ps) = true := by
  have h := buildZ_go ps .lf rfl rfl hnd (by intro q _ h; simp [keysB] at h)
  exact ⟨h.1, h.2.1⟩

/-- C5 witness: the seven-key scenario of the spec with explicit ranks. -/
theorem claimC5_witness :
    zbstB none none (buildZ [(5, 1), (3, 0), (8, 2), (1, 0), (4, 0), (7, 1), (9, 0)]) = true ∧
    heapB (buildZ [(5, 1), (3, 0), (8, 2), (1, 0), (4, 0), (7, 1), (9, 0)]) = true :=
  claimC5 [(5, 1), (3, 0), (8, 2), (1, 0), (4, 0), (7, 1), (9, 0)] (by decide)

/-- C10 witness: the splay tree built from [5, 3] with fresh key 4. -/
theorem claimC10_witness :
    containsS (insertS (buildS [5, 3]) 4).tree 4 = true ∧
    (pInsDup cmpHalf 3 (.nd .lf ⟨2, true, none, none⟩ .lf) = true ∧
     pUnlockFind cmpHalf 3 (.nd .lf ⟨2, true, none, none⟩ .lf) = none) :=
  claimC10 (buildS [5, 3]) 4 (by decide) (by decide)
